import Mathlib

/-!
Verification of the Nodio graph store: a shallow embedding of
`src/relations.rs`, `src/graph.rs`, `src/query.rs` and `src/prefab.rs`.

Handles (`AnyIndex`) are pairs of a slot index and a type hash; type
hashes and registry names are modelled as natural numbers.  Rust
`HashMap`/`HashSet` values are modelled as association lists / lists kept
as sets; the modelled operations mirror the Rust statements one by one
(including the places where the Rust code touches only one of the two
multimaps).
-/

namespace Nodio

/-- Mirror of `intuicio_framework_arena::AnyIndex`: a slot index paired
with the type hash of the stored value. -/
structure AnyIndex where
  index : Nat
  type_hash : Nat
deriving DecidableEq, Repr

/-- A `HashMap<AnyIndex, HashSet<AnyIndex>>` modelled as an association
list from keys to duplicate-free value lists. -/
abbrev MultiMap := List (AnyIndex × List AnyIndex)

/-- Value set stored under a key; empty when the key is absent
(`map.get(&k)` defaulting to the empty set). -/
def mmGet (m : MultiMap) (k : AnyIndex) : List AnyIndex :=
  (m.lookup k).getD []

/-- `map.entry(k).or_default().insert(v)`: create the entry if missing and
add `v` to its set (idempotent). -/
def mmInsert (m : MultiMap) (k v : AnyIndex) : MultiMap :=
  match m with
  | [] => [(k, [v])]
  | (k', vs) :: rest =>
    if k' = k then (k', if v ∈ vs then vs else vs ++ [v]) :: rest
    else (k', vs) :: mmInsert rest k v

/-- `if let Some(set) = map.get_mut(&k) { set.remove(&v); }`: remove `v`
from the entry's set when the entry exists; empty entries are kept. -/
def mmRemove (m : MultiMap) (k v : AnyIndex) : MultiMap :=
  match m with
  | [] => []
  | (k', vs) :: rest =>
    if k' = k then (k', vs.erase v) :: rest
    else (k', vs) :: mmRemove rest k v

/-- `set.drain()` on the entry of `k`: empty the set but keep the entry;
no-op when the entry is absent. -/
def mmDrain (m : MultiMap) (k : AnyIndex) : MultiMap :=
  match m with
  | [] => []
  | (k', vs) :: rest =>
    if k' = k then (k', []) :: rest
    else (k', vs) :: mmDrain rest k

/-- Mirror of `RelationsTable` (src/relations.rs): the per-category pair
of multimaps. -/
structure RelationsTable where
  outgoing : MultiMap
  incoming : MultiMap
deriving DecidableEq, Repr

/-- `RelationsTable::default()`. -/
def RelationsTable.empty : RelationsTable := ⟨[], []⟩

/-- `RelationsTable::insert` (src/relations.rs lines 11-14). -/
def RelationsTable.insert (t : RelationsTable) (from_ to_ : AnyIndex) : RelationsTable :=
  { outgoing := mmInsert t.outgoing from_ to_
    incoming := mmInsert t.incoming to_ from_ }

/-- `RelationsTable::remove` (src/relations.rs lines 16-23).  Faithful to
the source: the first statement drops `to` from `outgoing[from]`, the
second drops `from` from `outgoing[to]`; the `incoming` map is never
touched. -/
def RelationsTable.remove (t : RelationsTable) (from_ to_ : AnyIndex) : RelationsTable :=
  { t with outgoing := mmRemove (mmRemove t.outgoing from_ to_) to_ from_ }

/-- `RelationsTable::remove_all` (src/relations.rs lines 25-33): drain
`outgoing[from]` and drop `from` from `incoming[to]` for each drained
`to`. -/
def RelationsTable.remove_all (t : RelationsTable) (from_ : AnyIndex) : RelationsTable :=
  match t.outgoing.lookup from_ with
  | none => t
  | some ts =>
    { outgoing := mmDrain t.outgoing from_
      incoming := ts.foldl (fun m to_ => mmRemove m to_ from_) t.incoming }

/-- `RelationsTable::contains` (src/relations.rs lines 35-40). -/
def RelationsTable.contains (t : RelationsTable) (from_ to_ : AnyIndex) : Bool :=
  to_ ∈ mmGet t.outgoing from_

/-- `RelationsTable::outgoing` accessor (src/relations.rs lines 42-47). -/
def RelationsTable.outgoing_of (t : RelationsTable) (from_ : AnyIndex) : List AnyIndex :=
  mmGet t.outgoing from_

/-- `RelationsTable::incoming` accessor (src/relations.rs lines 49-54). -/
def RelationsTable.incoming_of (t : RelationsTable) (to_ : AnyIndex) : List AnyIndex :=
  mmGet t.incoming to_

/-- `RelationsTable::iter` (src/relations.rs lines 56-60): all `(from,
to)` pairs read off the `outgoing` map. -/
def RelationsTable.pairs (t : RelationsTable) : List (AnyIndex × AnyIndex) :=
  t.outgoing.flatMap (fun e => e.2.map (fun to_ => (e.1, to_)))

/-- Modelled from the spec: the external `AnyArena` (§6 contract), a
type-erased arena grouping values by type hash.  Each inner list holds
`(slot index, stored value)` pairs; stored values are abstracted to
naturals. -/
structure AnyArena where
  arenas : List (Nat × List (Nat × Nat))
deriving DecidableEq, Repr

/-- Modelled from the spec: `AnyArena::contains`. -/
def AnyArena.contains (a : AnyArena) (i : AnyIndex) : Bool :=
  a.arenas.any (fun e => e.1 = i.type_hash ∧ (e.2.lookup i.index).isSome)

/-- Modelled from the spec: `AnyArena::remove`, which fails when the
handle is not found. -/
def AnyArena.remove (a : AnyArena) (i : AnyIndex) : Option AnyArena :=
  if a.contains i then
    some ⟨a.arenas.map (fun e =>
      if e.1 = i.type_hash then (e.1, e.2.filter (fun s => s.1 ≠ i.index)) else e)⟩
  else none

/-- Modelled from the spec: `AnyArena::indices`, the full handle
enumeration. -/
def AnyArena.indices (a : AnyArena) : List AnyIndex :=
  a.arenas.flatMap (fun e => e.2.map (fun s => ⟨s.1, e.1⟩))

/-- Mirror of `Graph` (src/graph.rs lines 19-23): the arena plus the map
from relation-category type hash to its `RelationsTable`, modelled as an
association list. -/
structure Graph where
  nodes : AnyArena
  relations : List (Nat × RelationsTable)
deriving DecidableEq, Repr

/-- `relations.entry(TypeHash::of::<T>()).or_default()` followed by the
mutation `f`: update the category's table, creating a default one when
the category was never used. -/
def updateTable (rs : List (Nat × RelationsTable)) (t : Nat)
    (f : RelationsTable → RelationsTable) : List (Nat × RelationsTable) :=
  match rs with
  | [] => [(t, f RelationsTable.empty)]
  | (t', tab) :: rest =>
    if t' = t then (t', f tab) :: rest
    else (t', tab) :: updateTable rest t f

/-- `Graph::relate` (src/graph.rs lines 139-144); the category type
parameter `T` is its type hash. -/
def Graph.relate (g : Graph) (t : Nat) (from_ to_ : AnyIndex) : Graph :=
  { g with relations := updateTable g.relations t (fun tab => tab.insert from_ to_) }

/-- `Graph::unrelate` (src/graph.rs lines 170-175). -/
def Graph.unrelate (g : Graph) (t : Nat) (from_ to_ : AnyIndex) : Graph :=
  { g with relations := updateTable g.relations t (fun tab => tab.remove from_ to_) }

/-- `Graph::unrelate_all` (src/graph.rs lines 201-206). -/
def Graph.unrelate_all (g : Graph) (t : Nat) (from_ : AnyIndex) : Graph :=
  { g with relations := updateTable g.relations t (fun tab => tab.remove_all from_) }

/-- `Graph::are_related` (src/graph.rs lines 216-221). -/
def Graph.are_related (g : Graph) (t : Nat) (from_ to_ : AnyIndex) : Bool :=
  ((g.relations.lookup t).map (fun tab => tab.contains from_ to_)).getD false

/-- `Graph::relations_outgoing` (src/graph.rs lines 234-256). -/
def Graph.relations_outgoing (g : Graph) (t : Nat) (from_ : AnyIndex) : List AnyIndex :=
  ((g.relations.lookup t).map (fun tab => tab.outgoing_of from_)).getD []

/-- `Graph::relations_incomming` (src/graph.rs lines 283-305). -/
def Graph.relations_incomming (g : Graph) (t : Nat) (to_ : AnyIndex) : List AnyIndex :=
  ((g.relations.lookup t).map (fun tab => tab.incoming_of to_)).getD []

/-- `Graph::remove` (src/graph.rs lines 52-58): remove from the arena
(returning the arena error, with the graph untouched, when that fails),
then call `remove_all` on every category's table.  The pair returns the
resulting graph together with the error flag, mirroring `&mut self`
mutation plus `Result`. -/
def Graph.remove (g : Graph) (i : AnyIndex) : Graph × Bool :=
  match g.nodes.remove i with
  | none => (g, false)
  | some nodes' =>
    ({ nodes := nodes'
       relations := g.relations.map (fun e => (e.1, e.2.remove_all i)) }, true)

/-- Modelled from the spec: reading the raw stored value at a handle. -/
def AnyArena.value_of (a : AnyArena) (i : AnyIndex) : Option Nat :=
  ((a.arenas.lookup i.type_hash).getD []).lookup i.index

/-- Modelled from the spec: `AnyArena::read::<T>` — succeeds exactly when
the handle's type tag matches the requested type, the arena currently
grants shared access (`granted`), and the slot is live; the accessor is
abstracted to the stored value. -/
def Graph.read_q (g : Graph) (ty : Nat) (granted : AnyIndex → Bool) (i : AnyIndex) :
    Option Nat :=
  if i.type_hash = ty ∧ granted i = true then g.nodes.value_of i else none

/-- Modelled from the spec: `AnyArena::write::<T>` — as `read_q` but with
the arena's exclusive-access grant. -/
def Graph.write_q (g : Graph) (ty : Nat) (granted : AnyIndex → Bool) (i : AnyIndex) :
    Option Nat :=
  if i.type_hash = ty ∧ granted i = true then g.nodes.value_of i else none

/-- `QueryTransform for &'a T` (src/query.rs lines 153-160):
`graph.read(input).ok().into_iter()`. -/
def transformRead (g : Graph) (ty : Nat) (granted : AnyIndex → Bool)
    (input : AnyIndex) : List Nat :=
  (g.read_q ty granted input).toList

/-- `QueryTransform for &'a mut T` (src/query.rs lines 162-169):
`graph.write(input).ok().into_iter()`. -/
def transformWrite (g : Graph) (ty : Nat) (granted : AnyIndex → Bool)
    (input : AnyIndex) : List Nat :=
  (g.write_q ty granted input).toList

/-- `QueryTransform for Option<&'a T>` (src/query.rs lines 171-178):
`iter::once(graph.read(input).ok())`. -/
def transformReadOpt (g : Graph) (ty : Nat) (granted : AnyIndex → Bool)
    (input : AnyIndex) : List (Option Nat) :=
  [g.read_q ty granted input]

/-- `QueryTransform for Option<&'a mut T>` (src/query.rs lines 180-187):
`iter::once(graph.write(input).ok())`. -/
def transformWriteOpt (g : Graph) (ty : Nat) (granted : AnyIndex → Bool)
    (input : AnyIndex) : List (Option Nat) :=
  [g.write_q ty granted input]

/-! ### The query pipeline: pull-iterators and the tuple fetch -/

/-- One pull on a materialized component access (the state a
`Box<dyn Iterator>` access reaches): yield the next value and the
advanced state. -/
def listPull : List α → Option α × List α
  | [] => (none, [])
  | a :: rest => (some a, rest)

/-- `impl_fetch_tuple` for pairs (src/query.rs lines 224-257): fetch the
first component and short-circuit with `?` (the second component is not
advanced when the first is already exhausted), then fetch the second;
produce a joint value only when both pulls succeed. -/
def pairPull (sa : List α) (sb : List β) : Option (α × β) × (List α × List β) :=
  match listPull sa with
  | (none, sa') => (none, (sa', sb))
  | (some a, sa') =>
    match listPull sb with
    | (none, sb') => (none, (sa', sb'))
    | (some b, sb') => (some (a, b), (sa', sb'))

/-- `QueryIter::next` looped to exhaustion (src/query.rs lines 18-24):
repeatedly pull the tuple fetch, stopping at the first failed pull. -/
def collectPair : Nat → List α × List β → List (α × β)
  | 0, _ => []
  | fuel + 1, (sa, sb) =>
    match pairPull sa sb with
    | (none, _) => []
    | (some v, s') => v :: collectPair fuel s'

/-- `Related<T, Transform>::access` (src/query.rs lines 75-81): the
category's outgoing neighbors of the root, flat-mapped through the
transform. -/
def relatedAccess (g : Graph) (c : Nat) (tr : AnyIndex → List α) (root : AnyIndex) :
    List α :=
  (g.relations_outgoing c root).flatMap tr

/-- A full two-component tuple query over one root: build both `Related`
accesses from the same root, then pull until exhausted. -/
def runPairQuery (g : Graph) (c1 : Nat) (tr1 : AnyIndex → List α)
    (c2 : Nat) (tr2 : AnyIndex → List β) (root : AnyIndex) : List (α × β) :=
  let sa := relatedAccess g c1 tr1 root
  let sb := relatedAccess g c2 tr2 root
  collectPair (sa.length + 1) (sa, sb)

/-! ### Breadth-first traversal (`GraphTraverseIter`) -/

/-- All edge targets recorded in category `t`'s outgoing map: a superset
of every node's outgoing-neighbor list, used only to bound the
traversal's running time. -/
def catTargets (g : Graph) (t : Nat) : List AnyIndex :=
  match g.relations.lookup t with
  | none => []
  | some tab => tab.outgoing.flatMap (fun e => e.2)

/-- One step along an outgoing edge of category `t`. -/
def stepRel (g : Graph) (t : Nat) (a b : AnyIndex) : Prop :=
  b ∈ g.relations_outgoing t a

/-- Reachability along outgoing edges of category `t`. -/
def ReachC (g : Graph) (t : Nat) : AnyIndex → AnyIndex → Prop :=
  Relation.ReflTransGen (stepRel g t)

/-- Mirror of `GraphTraverseIter::next` (src/graph.rs lines 519-538) run
to exhaustion: pop the queue front, skip handles already visited,
otherwise mark the handle visited, push all its outgoing neighbors at
the back, and yield it.  `fuel` bounds the number of loop iterations;
`none` means the fuel ran out. -/
def traverseFuel (g : Graph) (t : Nat) :
    Nat → List AnyIndex → Finset AnyIndex → Option (List AnyIndex)
  | 0, _, _ => none
  | _ + 1, [], _ => some []
  | fuel + 1, x :: rest, visited =>
    if x ∈ visited then traverseFuel g t fuel rest visited
    else
      (traverseFuel g t fuel (rest ++ g.relations_outgoing t x) (insert x visited)).map
        (fun out => x :: out)

/-- Fuel sufficient to drain the traversal queue started at `start`. -/
def traverseAmount (g : Graph) (t : Nat) (start : AnyIndex) : Nat :=
  (insert start (catTargets g t).toFinset).card * ((catTargets g t).length + 1) + 2

/-- `Graph::relations_traverse` (src/graph.rs lines 332-334): the full
breadth-first enumeration from `start` following category `t`. -/
def Graph.relations_traverse (g : Graph) (t : Nat) (start : AnyIndex) : List AnyIndex :=
  (traverseFuel g t (traverseAmount g t start) [start] ∅).getD []

/-! ### Depth-first cycle search (`Graph::find_cycle`) -/

/-- State returned by the recursive `walk` of `Graph::find_cycle`: the
visited set, the current path, and the position of the detected cycle
start (or `none`) — the mutable state of the Rust function made
explicit. -/
abbrev WalkRes := Finset AnyIndex × List AnyIndex × Option Nat

/-- The `for target in …` loop of `walk` (src/graph.rs lines 476-483),
parameterized by the walker `wk` used for recursive descent: each target
is first checked against the current path (`path.iter().position(…)`,
returning the position of the first repeat), otherwise the walker
recurses into it; when all targets are exhausted the path is popped
(line 484) and `None` is returned. -/
def walkTargetsGo (wk : Finset AnyIndex → List AnyIndex → AnyIndex → Option WalkRes) :
    Finset AnyIndex → List AnyIndex → List AnyIndex → Option WalkRes
  | visited, path, [] => some (visited, path.dropLast, none)
  | visited, path, target :: rest =>
    match path.findIdx? (fun item => item == target) with
    | some i => some (visited, path, some i)
    | none =>
      match wk visited path target with
      | none => none
      | some (v2, p2, some i) => some (v2, p2, some i)
      | some (v2, p2, none) => walkTargetsGo wk v2 p2 rest

/-- `walk` of `Graph::find_cycle` (src/graph.rs lines 465-486), with a
fuel bound on the recursion depth (`none` = out of fuel): an
already-visited source returns immediately, otherwise the source is
marked visited, pushed on the path, and its outgoing targets are
walked. -/
def walkFuel (g : Graph) (t : Nat) :
    Nat → Finset AnyIndex → List AnyIndex → AnyIndex → Option WalkRes
  | 0, _, _, _ => none
  | fuel + 1, visited, path, source =>
    if source ∈ visited then some (visited, path, none)
    else
      walkTargetsGo (walkFuel g t fuel) (insert source visited) (path ++ [source])
        (g.relations_outgoing t source)

/-- Fuel sufficient for `walkFuel` from the empty state. -/
def walkAmount (g : Graph) (t : Nat) (start : AnyIndex) : Nat :=
  (insert start (catTargets g t).toFinset).card + 1

/-- `Graph::find_cycle` (src/graph.rs lines 464-494): run `walk` from a
fresh state; on detection return the sub-path from the repeated
neighbor's position to the path's end, otherwise return the (restored,
empty) path. -/
def Graph.find_cycle (g : Graph) (t : Nat) (index : AnyIndex) : List AnyIndex :=
  match walkFuel g t (walkAmount g t index) ∅ [] index with
  | some (_, path, some i) => path.drop i
  | some (_, path, none) => path
  | none => []

/-- `Graph::find_cycles` (src/graph.rs lines 447-452): run `find_cycle`
from every handle in the arena and keep the non-empty results. -/
def Graph.find_cycles (g : Graph) (t : Nat) : List (List AnyIndex) :=
  (g.nodes.indices.map (fun i => g.find_cycle t i)).filter (fun c => !c.isEmpty)

/-- A directed cycle is reachable from `s`: some `u` reachable from `s`
carries an edge `u → v` whose target reaches back to `u`. -/
def HasCycleFrom (g : Graph) (t : Nat) (s : AnyIndex) : Prop :=
  ∃ u v, ReachC g t s u ∧ stepRel g t u v ∧ ReachC g t v u

/-- `l` is a closed walk: consecutive members are edges, and the last
member has an edge back to the first. -/
def IsCycleList (g : Graph) (t : Nat) (l : List AnyIndex) : Prop :=
  l ≠ [] ∧ l.Chain' (stepRel g t) ∧
  ∀ a b, l.getLast? = some a → l.head? = some b → stepRel g t a b

/-- A node finished by the search: visited and no longer on the path. -/
def Finished (visited : Finset AnyIndex) (path : List AnyIndex) (v : AnyIndex) : Prop :=
  v ∈ visited ∧ v ∉ path

/-- The invariant of the depth-first search: finished nodes only step to
finished nodes, and no finished node can reach a cycle. -/
def WalkInv (g : Graph) (t : Nat) (visited : Finset AnyIndex) (path : List AnyIndex) : Prop :=
  (∀ v, Finished visited path v → ∀ w, stepRel g t v w → Finished visited path w) ∧
  (∀ v, Finished visited path v → ¬ HasCycleFrom g t v)

/-- What `walk` has produced when it reports a repeat at position `i`:
the final path is a connected chain of reachable nodes whose last
element steps back to position `i`. -/
def CycleOut (g : Graph) (t : Nat) (start : AnyIndex) (p : List AnyIndex) (i : Nat) : Prop :=
  ∃ hne : p ≠ [], p.Chain' (stepRel g t) ∧ (∀ x ∈ p, ReachC g t start x) ∧
    ∃ hi : i < p.length, stepRel g t (p.getLast hne) (p.get ⟨i, hi⟩)

/-! ### Prefab (src/prefab.rs): snapshot and restore -/

/-- Modelled from the spec: the external type registry, resolving a type
hash to its name and back.  Names fold the Rust `(type_name,
module_name)` pair into one abstract value. -/
abbrev Registry := List (Nat × Nat)

/-- `registry.find_type(TypeQuery { type_hash, .. })`, keeping only the
name. -/
def regFindByHash (reg : Registry) (h : Nat) : Option Nat :=
  reg.lookup h

/-- `registry.find_type(TypeQuery { name, module_name, .. })`, keeping
only the type hash. -/
def regFindByName (reg : Registry) (n : Nat) : Option Nat :=
  (reg.find? (fun e => e.2 == n)).map (fun e => e.1)

/-- Modelled from the spec: the serialization registry as the set of
type hashes it supports; the `Intermediate` form of a value is the value
itself. -/
abbrev SerRegistry := List Nat

/-- Mirror of `PrefabError` (src/prefab.rs lines 12-25); the arena
variant keeps the `IndexNotFound { type_hash, index }` payload. -/
inductive PrefabError where
  | CouldNotFindType (h : Nat)
  | CouldNotSerializeType (name : Nat)
  | CouldNotDeserializeType (name : Nat)
  | ArenaIndexNotFound (h : Nat) (i : Nat)
deriving DecidableEq, Repr

/-- Mirror of `PrefabNodesArchetype` (src/prefab.rs lines 77-82). -/
structure PrefabNodesArchetype where
  type_name : Nat
  indices : List Nat
  data : List Nat
deriving DecidableEq, Repr

/-- Mirror of `PrefabRelationsTableItem` (src/prefab.rs lines 84-88). -/
structure PrefabRelationsTableItem where
  type_name : Nat
  index : Nat
deriving DecidableEq, Repr

/-- Mirror of `PrefabRelationsTable` (src/prefab.rs lines 90-95). -/
structure PrefabRelationsTable where
  source_type_name : Nat
  source_index : Nat
  target : List PrefabRelationsTableItem
deriving DecidableEq, Repr

/-- Mirror of `PrefabRelationArchetype` (src/prefab.rs lines 97-102). -/
structure PrefabRelationArchetype where
  type_name : Nat
  incoming : List PrefabRelationsTable
  outgoing : List PrefabRelationsTable
deriving DecidableEq, Repr

/-- Mirror of `Prefab` (src/prefab.rs lines 104-108). -/
structure Prefab where
  nodes : List PrefabNodesArchetype
  relations : List PrefabRelationArchetype
deriving DecidableEq, Repr

/-- Resolve a type hash against the registry, failing with
`CouldNotFindType` like `from_graph` does. -/
def resolveHash (reg : Registry) (th : Nat) : Except PrefabError Nat :=
  match regFindByHash reg th with
  | some n => Except.ok n
  | none => Except.error (PrefabError.CouldNotFindType th)

/-- `serialization.dynamic_serialize_from`, failing with
`CouldNotSerializeType` when the serializer is missing. -/
def serializeValue (ser : SerRegistry) (name th v : Nat) : Except PrefabError Nat :=
  if th ∈ ser then Except.ok v else Except.error (PrefabError.CouldNotSerializeType name)

/-- One node archetype of `from_graph` (src/prefab.rs lines 120-149):
resolve the arena's type, collect its indices, serialize each value. -/
def nodeArchetypeOf (ser : SerRegistry) (reg : Registry) (e : Nat × List (Nat × Nat)) :
    Except PrefabError PrefabNodesArchetype := do
  let name ← resolveHash reg e.1
  let data ← e.2.mapM (fun s => serializeValue ser name e.1 s.2)
  pure { type_name := name, indices := e.2.map (fun s => s.1), data }

/-- One side of a relation archetype (src/prefab.rs lines 165-250):
resolve the source and target types of every entry of one multimap. -/
def tableToPrefab (reg : Registry) (m : MultiMap) :
    Except PrefabError (List PrefabRelationsTable) :=
  m.mapM (fun en => do
    let sname ← resolveHash reg en.1.type_hash
    let target ← en.2.mapM (fun tgt => do
      let tname ← resolveHash reg tgt.type_hash
      pure ({ type_name := tname, index := tgt.index } : PrefabRelationsTableItem))
    pure ({ source_type_name := sname, source_index := en.1.index, target } :
      PrefabRelationsTable))

/-- One relation archetype of `from_graph` (src/prefab.rs lines
154-256): resolve the category, then the incoming side, then the
outgoing side. -/
def relationArchetypeOf (reg : Registry) (e : Nat × RelationsTable) :
    Except PrefabError PrefabRelationArchetype := do
  let name ← resolveHash reg e.1
  let incoming ← tableToPrefab reg e.2.incoming
  let outgoing ← tableToPrefab reg e.2.outgoing
  pure { type_name := name, incoming, outgoing }

/-- `Prefab::from_graph` (src/prefab.rs lines 111-259): node archetypes
from the arenas, then relation archetypes from the relation tables;
the first error short-circuits. -/
def Prefab.from_graph (g : Graph) (ser : SerRegistry) (reg : Registry) :
    Except PrefabError Prefab := do
  let nodes ← g.nodes.arenas.mapM (nodeArchetypeOf ser reg)
  let relations ← g.relations.mapM (relationArchetypeOf reg)
  pure { nodes, relations }

/-- Resolve a type name against the registry, failing with
`CouldNotDeserializeType` like `to_graph` does. -/
def resolveName (reg : Registry) (n : Nat) : Except PrefabError Nat :=
  match regFindByName reg n with
  | some th => Except.ok th
  | none => Except.error (PrefabError.CouldNotDeserializeType n)

/-- `serialization.dynamic_deserialize_to`, failing with
`CouldNotDeserializeType` when the deserializer is missing. -/
def deserializeValue (ser : SerRegistry) (name th v : Nat) : Except PrefabError Nat :=
  if th ∈ ser then Except.ok v else Except.error (PrefabError.CouldNotDeserializeType name)

/-- Modelled from the spec: `AnyArena::ensure_arena_raw` — add an empty
arena for the type when none exists yet. -/
def ensureArena (a : AnyArena) (th : Nat) : AnyArena :=
  if (a.arenas.lookup th).isSome then a else ⟨a.arenas ++ [(th, [])]⟩

/-- Modelled from the spec: `arena.allocate()` — append the value to the
type's arena under the next sequential slot index. -/
def arenaAllocate (a : AnyArena) (th v : Nat) : AnyArena × Nat :=
  (⟨a.arenas.map (fun e => if e.1 = th then
      (e.1, e.2 ++ [(((a.arenas.lookup th).getD []).length, v)]) else e)⟩,
    ((a.arenas.lookup th).getD []).length)

/-- The node loop of `to_graph` (src/prefab.rs lines 268-302): for every
archetype resolve the type by name, ensure its arena, then allocate and
deserialize each payload in order, recording the old-handle → new-handle
mapping (modelled as an association list in insertion order). -/
def toGraphNodes (ser : SerRegistry) (reg : Registry) :
    List PrefabNodesArchetype → AnyArena → List (AnyIndex × AnyIndex) →
    Except PrefabError (AnyArena × List (AnyIndex × AnyIndex))
  | [], arena, mappings => Except.ok (arena, mappings)
  | arch :: rest, arena, mappings => do
    let th ← resolveName reg arch.type_name
    let state ← (arch.indices.zip arch.data).foldlM
      (fun (st : AnyArena × List (AnyIndex × AnyIndex)) od => do
        let v ← deserializeValue ser arch.type_name th od.2
        pure ((arenaAllocate st.1 th v).1,
          st.2 ++ [(⟨od.1, th⟩, ⟨(arenaAllocate st.1 th v).2, th⟩)]))
      (ensureArena arena th, mappings)
    toGraphNodes ser reg rest state.1 state.2

/-- Map an old handle through the mapping, failing with the arena's
`IndexNotFound` error like `to_graph` does on a dangling reference. -/
def mapIndexTh (mappings : List (AnyIndex × AnyIndex)) (i : AnyIndex) :
    Except PrefabError AnyIndex :=
  match mappings.lookup i with
  | some j => Except.ok j
  | none => Except.error (PrefabError.ArenaIndexNotFound i.type_hash i.index)

/-- Rebuild one multimap of a relation archetype (src/prefab.rs lines
321-376): resolve every target's type and map it, then resolve and map
the source. -/
def prefabTableToMultiMap (reg : Registry) (mappings : List (AnyIndex × AnyIndex))
    (ts : List PrefabRelationsTable) : Except PrefabError MultiMap :=
  ts.mapM (fun tab => do
    let sth ← resolveName reg tab.source_type_name
    let target ← tab.target.mapM (fun tgt => do
      let tth ← resolveName reg tgt.type_name
      mapIndexTh mappings ⟨tgt.index, tth⟩)
    let src ← mapIndexTh mappings ⟨tab.source_index, sth⟩
    pure (src, target))

/-- `Prefab::to_graph` (src/prefab.rs lines 261-437): rebuild the arena
and the mapping from the node archetypes, then rebuild every relation
table (outgoing side first, then incoming) through the mapping. -/
def Prefab.to_graph (p : Prefab) (ser : SerRegistry) (reg : Registry) :
    Except PrefabError (Graph × List (AnyIndex × AnyIndex)) := do
  let state ← toGraphNodes ser reg p.nodes ⟨[]⟩ []
  let relations ← p.relations.mapM (fun arch => do
    let th ← resolveName reg arch.type_name
    let outgoing ← prefabTableToMultiMap reg state.2 arch.outgoing
    let incoming ← prefabTableToMultiMap reg state.2 arch.incoming
    pure (th, ({ outgoing, incoming } : RelationsTable)))
  pure ({ nodes := state.1, relations }, state.2)

/-! ### Expected round-trip results and side conditions -/

/-- Every node-arena type is registry-resolvable and serializable. -/
abbrev NodesResolvable (g : Graph) (ser : SerRegistry) (reg : Registry) : Prop :=
  ∀ e ∈ g.nodes.arenas, (regFindByHash reg e.1).isSome ∧ e.1 ∈ ser

/-- Every relation category and every endpoint type appearing in a
relation table is registry-resolvable. -/
abbrev CatsResolvable (g : Graph) (reg : Registry) : Prop :=
  ∀ e ∈ g.relations, (regFindByHash reg e.1).isSome ∧
    (∀ en ∈ e.2.incoming, (regFindByHash reg en.1.type_hash).isSome ∧
      ∀ tgt ∈ en.2, (regFindByHash reg tgt.type_hash).isSome) ∧
    (∀ en ∈ e.2.outgoing, (regFindByHash reg en.1.type_hash).isSome ∧
      ∀ tgt ∈ en.2, (regFindByHash reg tgt.type_hash).isSome)

/-- The handle is stored in the arena. -/
abbrev LiveIdx (g : Graph) (i : AnyIndex) : Prop :=
  ∃ e ∈ g.nodes.arenas, e.1 = i.type_hash ∧ i.index ∈ e.2.map Prod.fst

/-- The §3 graph invariant: every handle appearing in any relation table
(keys and values, outgoing and incoming) is stored in the arena. -/
abbrev GraphWellFormed (g : Graph) : Prop :=
  ∀ e ∈ g.relations,
    (∀ en ∈ e.2.incoming, LiveIdx g en.1 ∧ ∀ tgt ∈ en.2, LiveIdx g tgt) ∧
    (∀ en ∈ e.2.outgoing, LiveIdx g en.1 ∧ ∀ tgt ∈ en.2, LiveIdx g tgt)

/-- The slot position of a live handle inside its type's arena. -/
def posInArena (g : Graph) (i : AnyIndex) : Nat :=
  (((g.nodes.arenas.lookup i.type_hash).getD []).map Prod.fst).indexOf i.index

/-- The handle renumbering realized by a round trip: same type, slot
renumbered to its position in the arena's enumeration order. -/
def renumber (g : Graph) (i : AnyIndex) : AnyIndex :=
  ⟨posInArena g i, i.type_hash⟩

/-- The mapping produced for one arena: old slots paired positionally
with the fresh sequential slots. -/
def arenaMapping (th : Nat) (slots : List (Nat × Nat)) : List (AnyIndex × AnyIndex) :=
  ((slots.map Prod.fst).zip (List.range' 0 slots.length)).map
    (fun p => (⟨p.1, th⟩, ⟨p.2, th⟩))

/-- The old-handle → new-handle mapping a round trip returns. -/
def mappingOf (g : Graph) : List (AnyIndex × AnyIndex) :=
  g.nodes.arenas.flatMap (fun e => arenaMapping e.1 e.2)

/-- The arena a round trip rebuilds: same types and values in order,
slots renumbered sequentially from zero. -/
def renumberedArena (g : Graph) : AnyArena :=
  ⟨g.nodes.arenas.map (fun e =>
    (e.1, (List.range' 0 e.2.length).zip (e.2.map Prod.snd)))⟩

/-- The registered name of a type hash (defaulting to 0; only used under
resolvability hypotheses). -/
def nameOfD (reg : Registry) (th : Nat) : Nat :=
  (regFindByHash reg th).getD 0

/-- The node archetype `from_graph` produces for one arena. -/
def expectedNodeArch (reg : Registry) (e : Nat × List (Nat × Nat)) : PrefabNodesArchetype :=
  ⟨nameOfD reg e.1, e.2.map Prod.fst, e.2.map Prod.snd⟩

/-- The serialized form of one edge target. -/
def expectedItem (reg : Registry) (tgt : AnyIndex) : PrefabRelationsTableItem :=
  ⟨nameOfD reg tgt.type_hash, tgt.index⟩

/-- The serialized form of one multimap entry. -/
def expectedTable (reg : Registry) (en : AnyIndex × List AnyIndex) : PrefabRelationsTable :=
  ⟨nameOfD reg en.1.type_hash, en.1.index, en.2.map (expectedItem reg)⟩

/-- The relation archetype `from_graph` produces for one category. -/
def expectedRelArch (reg : Registry) (e : Nat × RelationsTable) : PrefabRelationArchetype :=
  ⟨nameOfD reg e.1, e.2.incoming.map (expectedTable reg), e.2.outgoing.map (expectedTable reg)⟩

/-- The prefab `from_graph` produces when every resolution succeeds. -/
def expectedPrefab (g : Graph) (reg : Registry) : Prefab :=
  ⟨g.nodes.arenas.map (expectedNodeArch reg), g.relations.map (expectedRelArch reg)⟩

/-- A multimap with every handle (keys and values) renumbered. -/
def mapMultiMap (f : AnyIndex → AnyIndex) (m : MultiMap) : MultiMap :=
  m.map (fun en => (f en.1, en.2.map f))

/-- The relation tables with every handle renumbered,
category-preserving. -/
def mapGraphRelations (f : AnyIndex → AnyIndex) (rs : List (Nat × RelationsTable)) :
    List (Nat × RelationsTable) :=
  rs.map (fun e => (e.1, { outgoing := mapMultiMap f e.2.outgoing
                           incoming := mapMultiMap f e.2.incoming }))

/-- The handles an arena enumerates: every stored slot paired with its
arena's type hash. -/
def arenaIndices (a : AnyArena) : List AnyIndex :=
  a.arenas.flatMap (fun e => e.2.map (fun s => (⟨s.1, e.1⟩ : AnyIndex)))

/-- Every arena stores each slot index at most once (Rust's per-type
`HashMap` keyed by slot). -/
abbrev ArenaSlotsNodup (g : Graph) : Prop :=
  ∀ e ∈ g.nodes.arenas, (e.2.map Prod.fst).Nodup

/-! ### Concrete handles used by the evaluating theorems -/

/-- Handle `(slot 0, type 0)`. -/
def h0 : AnyIndex := ⟨0, 0⟩

/-- Handle `(slot 1, type 0)`. -/
def h1 : AnyIndex := ⟨1, 0⟩

/-- A two-node arena holding `h0` and `h1` (values 10 and 11) of type 0. -/
def arena2 : AnyArena := ⟨[(0, [(0, 10), (1, 11)])]⟩

/-- A graph with nodes `h0`, `h1` and no relations. -/
def graph2 : Graph := { nodes := arena2, relations := [] }

/-- Handles A, B, C, D of the cycle-test scenario (slots 0..3, type 0). -/
def hA : AnyIndex := ⟨0, 0⟩

/-- Handle B of the cycle-test scenario. -/
def hB : AnyIndex := ⟨1, 0⟩

/-- Handle C of the cycle-test scenario. -/
def hC : AnyIndex := ⟨2, 0⟩

/-- Handle D of the cycle-test scenario. -/
def hD : AnyIndex := ⟨3, 0⟩

/-- A four-node arena holding A, B, C, D. -/
def arena4 : AnyArena := ⟨[(0, [(0, 0), (1, 1), (2, 2), (3, 3)])]⟩

/-- The acyclic diamond of the spec's cycle test: edges A→B, A→C, B→D,
C→D under category 0. -/
def gDiamond : Graph :=
  ((({ nodes := arena4, relations := [] } : Graph).relate 0 hA hB).relate 0 hA hC
      |>.relate 0 hB hD).relate 0 hC hD

/-- The diamond with the back edge D→A added, closing a cycle. -/
def gDiamondBack : Graph := gDiamond.relate 0 hD hA

/-- A registry resolving type 0 (name 100) and category 5 (name 105). -/
def regEx : Registry := [(0, 100), (5, 105)]

/-- A serialization registry supporting type 0. -/
def serEx : SerRegistry := [0]

/-- A graph with a dangling edge reached through the public API alone:
insert `h0`, `h1`, relate `h0 → h1` under category 5, then remove `h1`
— `Graph::remove` leaves the edge in place because `remove_all` only
purges the outgoing role of the removed handle. -/
def gDangling : Graph := ((graph2.relate 5 h0 h1).remove h1).1

/-- A well-formed graph with two nodes and one category-5 edge
`h0 → h1`. -/
def gGood : Graph := graph2.relate 5 h0 h1

/-- Collecting the pair fetch is exactly `List.zip` of the component
accesses, whenever the fuel covers the first component. -/
theorem collectPair_eq_zip :
    ∀ (fuel : Nat) (sa : List α) (sb : List β), sa.length < fuel →
      collectPair fuel (sa, sb) = sa.zip sb := by
  intro fuel
  induction fuel with
  | zero => intro sa sb h; exact absurd h (by omega)
  | succ n ih =>
    intro sa sb h
    match sa, sb with
    | [], sb => simp [collectPair, pairPull, listPull]
    | a :: as_, [] => simp [collectPair, pairPull, listPull]
    | a :: as_, b :: bs =>
      simp only [collectPair, pairPull, listPull, List.zip_cons_cons]
      rw [ih as_ bs (by simpa using Nat.lt_of_succ_lt_succ h)]

/-- C1: `RelationsTable::remove(from, to)` fails to drop `from` from
`incoming[to]`: starting from an empty table, after `insert(h0, h1)`
followed by `remove(h0, h1)` the edge is gone from the `outgoing` map but
`h0` is still recorded in `incoming[h1]`, so the two maps no longer
describe the same edge set. -/
theorem C1_remove_leaves_incoming_stale :
    ((RelationsTable.empty.insert h0 h1).remove h0 h1).contains h0 h1 = false ∧
    h0 ∈ ((RelationsTable.empty.insert h0 h1).remove h0 h1).incoming_of h1 := by
  decide

/-- C2: after `Graph::remove(h1)` succeeds on a graph with the single
edge `h0 → h1` in category 5, the edge survives in both roles: `h1` is
still in `outgoing[h0]` and the incoming enumeration for `h1` still
yields `h0` — dangling references to the removed node. -/
theorem C2_remove_leaves_dangling_references :
    ((graph2.relate 5 h0 h1).remove h1).2 = true ∧
    h1 ∈ (((graph2.relate 5 h0 h1).remove h1).1.relations_outgoing 5 h0) ∧
    h0 ∈ (((graph2.relate 5 h0 h1).remove h1).1.relations_incomming 5 h1) := by
  decide

/-- C3: `unrelate` on the triple `(5, h0, h1)` also deletes the distinct
reversed edge `(5, h1, h0)`: after `relate(h0,h1)`, `relate(h1,h0)`,
`unrelate(h0,h1)` the net parity of inserts/removes for `(5, h1, h0)` is
one insert, yet `are_related(h1, h0)` is `false`. -/
theorem C3_unrelate_clears_reversed_triple :
    (((graph2.relate 5 h0 h1).relate 5 h1 h0).unrelate 5 h0 h1).are_related 5 h1 h0
      = false := by
  decide

/-- With an exhausted second component the pair fetch yields nothing,
whatever the fuel. -/
theorem collectPair_nil_right :
    ∀ (fuel : Nat) (sa : List α), collectPair fuel (sa, ([] : List β)) = [] := by
  intro fuel sa
  cases fuel with
  | zero => rfl
  | succ n => cases sa <;> simp [collectPair, pairPull, listPull]

/-- C6: the tuple fetch is a positional zip: over any root, the
two-component tuple of `Related` fetches yields exactly the positional
pairing of the two component sequences, hence exactly
`min(len first, len second)` results; and the moment one pull fails the
tuple fetch is permanently exhausted (every later pull yields nothing). -/
theorem C6_tuple_fetch_zip (g : Graph) (c1 c2 : Nat) (tr1 : AnyIndex → List α)
    (tr2 : AnyIndex → List β) (root : AnyIndex) :
    runPairQuery g c1 tr1 c2 tr2 root
        = (relatedAccess g c1 tr1 root).zip (relatedAccess g c2 tr2 root) ∧
    (runPairQuery g c1 tr1 c2 tr2 root).length
        = min (relatedAccess g c1 tr1 root).length (relatedAccess g c2 tr2 root).length ∧
    (∀ (sa : List α) (sb : List β), (pairPull sa sb).1 = none →
      ∀ fuel, collectPair fuel (pairPull sa sb).2 = []) := by
  refine ⟨collectPair_eq_zip _ _ _ (Nat.lt_succ_self _), ?_, ?_⟩
  · rw [runPairQuery, collectPair_eq_zip _ _ _ (Nat.lt_succ_self _), List.length_zip]
  · intro sa sb hnone fuel
    match sa, sb with
    | [], sb =>
      cases fuel with
      | zero => rfl
      | succ n => exact collectPair_eq_zip _ _ _ (by simp)
    | a :: as_, [] =>
      simpa [pairPull, listPull] using collectPair_nil_right fuel as_
    | a :: as_, b :: bs => simp [pairPull, listPull] at hnone

/-- C8: the typed-read and typed-write transforms yield the accessor
exactly when the arena grants access, and yield nothing (an empty output
branch, not an error) when the type tag does not match or access cannot
be granted; the optional variants always yield exactly one output,
`some accessor` on success and `none` on failure. -/
theorem C8_typed_access_transforms (g : Graph) (ty : Nat)
    (gr gw : AnyIndex → Bool) (i : AnyIndex) :
    (∀ v, v ∈ transformRead g ty gr i ↔ g.read_q ty gr i = some v) ∧
    (transformRead g ty gr i).length ≤ 1 ∧
    (g.read_q ty gr i = none → transformRead g ty gr i = []) ∧
    (∀ v, v ∈ transformWrite g ty gw i ↔ g.write_q ty gw i = some v) ∧
    (transformWrite g ty gw i).length ≤ 1 ∧
    (g.write_q ty gw i = none → transformWrite g ty gw i = []) ∧
    (i.type_hash ≠ ty → transformRead g ty gr i = [] ∧ transformWrite g ty gw i = []) ∧
    transformReadOpt g ty gr i = [g.read_q ty gr i] ∧
    (transformReadOpt g ty gr i).length = 1 ∧
    transformWriteOpt g ty gw i = [g.write_q ty gw i] ∧
    (transformWriteOpt g ty gw i).length = 1 := by
  refine ⟨?_, ?_, ?_, ?_, ?_, ?_, ?_, rfl, rfl, rfl, rfl⟩
  · intro v; cases h : g.read_q ty gr i <;> simp [transformRead, h, eq_comm]
  · cases h : g.read_q ty gr i <;> simp [transformRead, h]
  · intro h; simp [transformRead, h]
  · intro v; cases h : g.write_q ty gw i <;> simp [transformWrite, h, eq_comm]
  · cases h : g.write_q ty gw i <;> simp [transformWrite, h]
  · intro h; simp [transformWrite, h]
  · intro h
    constructor
    · simp [transformRead, Graph.read_q, h]
    · simp [transformWrite, Graph.write_q, h]

/-- Witness for C8 at a concrete graph, type, grant functions and
handle. -/
theorem C8_typed_access_transforms_instance :
    (∀ v, v ∈ transformRead graph2 0 (fun _ => true) h0 ↔
        graph2.read_q 0 (fun _ => true) h0 = some v) ∧
    (transformRead graph2 0 (fun _ => true) h0).length ≤ 1 ∧
    (graph2.read_q 0 (fun _ => true) h0 = none →
        transformRead graph2 0 (fun _ => true) h0 = []) ∧
    (∀ v, v ∈ transformWrite graph2 0 (fun _ => false) h0 ↔
        graph2.write_q 0 (fun _ => false) h0 = some v) ∧
    (transformWrite graph2 0 (fun _ => false) h0).length ≤ 1 ∧
    (graph2.write_q 0 (fun _ => false) h0 = none →
        transformWrite graph2 0 (fun _ => false) h0 = []) ∧
    (h0.type_hash ≠ 0 → transformRead graph2 0 (fun _ => true) h0 = [] ∧
        transformWrite graph2 0 (fun _ => false) h0 = []) ∧
    transformReadOpt graph2 0 (fun _ => true) h0 = [graph2.read_q 0 (fun _ => true) h0] ∧
    (transformReadOpt graph2 0 (fun _ => true) h0).length = 1 ∧
    transformWriteOpt graph2 0 (fun _ => false) h0
        = [graph2.write_q 0 (fun _ => false) h0] ∧
    (transformWriteOpt graph2 0 (fun _ => false) h0).length = 1 :=
  C8_typed_access_transforms graph2 0 (fun _ => true) (fun _ => false) h0

/-- C9: `Graph::remove` is atomic on error — when the arena rejects the
removal the error is returned before any relation table is touched, so
the graph (every relation table included) is exactly as before. -/
theorem C9_remove_atomic_on_error (g : Graph) (i : AnyIndex)
    (h : g.nodes.contains i = false) :
    g.remove i = (g, false) := by
  simp [Graph.remove, AnyArena.remove, h]

/-- Witness for C9: removing the invalid handle `(slot 5, type 0)` from
`graph2` fails and leaves the graph untouched. -/
theorem C9_remove_atomic_on_error_instance :
    graph2.nodes.contains ⟨5, 0⟩ = false ∧ graph2.remove ⟨5, 0⟩ = (graph2, false) :=
  ⟨by decide, C9_remove_atomic_on_error graph2 ⟨5, 0⟩ (by decide)⟩

/-! ### Breadth-first traversal: correctness -/

/-- A value list found under a key is no longer than the concatenation of
all value lists. -/
theorem lookup_length_le_flat (m : MultiMap) (k : AnyIndex) (vs : List AnyIndex)
    (h : m.lookup k = some vs) : vs.length ≤ (m.flatMap (fun e => e.2)).length := by
  induction m with
  | nil => simp [List.lookup] at h
  | cons e rest ih =>
    rw [List.flatMap_cons, List.length_append]
    rcases e with ⟨k', vs'⟩
    rw [List.lookup] at h
    by_cases hk : k = k'
    · simp only [hk, beq_self_eq_true] at h
      cases h
      exact Nat.le_add_right _ _
    · simp only [beq_eq_false_iff_ne.mpr hk] at h
      exact (ih h).trans (Nat.le_add_left _ _)

/-- Every member of a value list found under a key is a member of the
concatenation of all value lists. -/
theorem lookup_mem_flat (m : MultiMap) (k : AnyIndex) (vs : List AnyIndex)
    (h : m.lookup k = some vs) (v : AnyIndex) (hv : v ∈ vs) :
    v ∈ m.flatMap (fun e => e.2) := by
  induction m with
  | nil => simp [List.lookup] at h
  | cons e rest ih =>
    rw [List.flatMap_cons, List.mem_append]
    rcases e with ⟨k', vs'⟩
    rw [List.lookup] at h
    by_cases hk : k = k'
    · simp only [hk, beq_self_eq_true] at h
      cases h
      exact Or.inl hv
    · simp only [beq_eq_false_iff_ne.mpr hk] at h
      exact Or.inr (ih h)

/-- An outgoing-neighbor list is no longer than the category's full
target list. -/
theorem relations_outgoing_length_le (g : Graph) (t : Nat) (x : AnyIndex) :
    (g.relations_outgoing t x).length ≤ (catTargets g t).length := by
  rw [Graph.relations_outgoing, catTargets]
  cases h : g.relations.lookup t with
  | none => simp
  | some tab =>
    simp only [Option.map_some', Option.getD_some, RelationsTable.outgoing_of, mmGet]
    cases h2 : List.lookup x tab.outgoing with
    | none => simp
    | some vs => simpa using lookup_length_le_flat _ _ _ h2

/-- Outgoing neighbors are members of the category's full target list. -/
theorem relations_outgoing_subset (g : Graph) (t : Nat) (x y : AnyIndex)
    (h : y ∈ g.relations_outgoing t x) : y ∈ catTargets g t := by
  rw [Graph.relations_outgoing] at h
  rw [catTargets]
  cases hl : g.relations.lookup t with
  | none => rw [hl] at h; simp at h
  | some tab =>
    rw [hl] at h
    simp only [Option.map_some', Option.getD_some, RelationsTable.outgoing_of, mmGet] at h
    cases h2 : List.lookup x tab.outgoing with
    | none => rw [h2] at h; simp at h
    | some vs =>
      rw [h2] at h
      simp only [Option.getD_some] at h
      simpa using lookup_mem_flat _ _ _ h2 _ h

/-- With enough fuel the traversal loop drains its queue. -/
theorem traverseFuel_isSome (g : Graph) (t : Nat) (U : Finset AnyIndex)
    (hU : ∀ y ∈ catTargets g t, y ∈ U) :
    ∀ (fuel : Nat) (queue : List AnyIndex) (visited : Finset AnyIndex),
      (∀ q ∈ queue, q ∈ U) →
      queue.length + (U \ visited).card * ((catTargets g t).length + 1) < fuel →
      (traverseFuel g t fuel queue visited).isSome := by
  intro fuel
  induction fuel with
  | zero => intro queue visited _ h; exact absurd h (by omega)
  | succ n ih =>
    intro queue visited hQ h
    match queue with
    | [] => simp [traverseFuel]
    | x :: rest =>
      rw [traverseFuel]
      by_cases hx : x ∈ visited
      · rw [if_pos hx]
        refine ih rest visited (fun q hq => hQ q (List.mem_cons_of_mem _ hq)) ?_
        simp only [List.length_cons] at h
        omega
      · rw [if_neg hx]
        rw [Option.isSome_map']
        refine ih _ _ ?_ ?_
        · intro q hq
          rcases List.mem_append.mp hq with hq | hq
          · exact hQ q (List.mem_cons_of_mem _ hq)
          · exact hU q (relations_outgoing_subset g t x q hq)
        · have hxU : x ∈ U \ visited := Finset.mem_sdiff.mpr ⟨hQ x (List.mem_cons_self x rest), hx⟩
          have hcard : (U \ insert x visited).card + 1 = (U \ visited).card := by
            rw [Finset.sdiff_insert]
            exact Finset.card_erase_add_one hxU
          have hlen := relations_outgoing_length_le g t x
          have hmul : (U \ insert x visited).card * ((catTargets g t).length + 1)
              + ((catTargets g t).length + 1)
              = (U \ visited).card * ((catTargets g t).length + 1) := by
            rw [← hcard]; ring
          simp only [List.length_append, List.length_cons] at h ⊢
          omega

/-- The traversal from a fresh singleton queue yields its start handle
first. -/
theorem traverseFuel_head (g : Graph) (t : Nat) (fuel : Nat) (start : AnyIndex)
    (visited : Finset AnyIndex) (out : List AnyIndex) (hs : start ∉ visited)
    (h : traverseFuel g t fuel [start] visited = some out) :
    out.head? = some start := by
  match fuel with
  | 0 => exact absurd h (by simp [traverseFuel])
  | n + 1 =>
    rw [traverseFuel, if_neg hs] at h
    rcases Option.map_eq_some'.mp h with ⟨out', _, rfl⟩
    rfl

/-- Every yielded handle was unvisited when the loop started, and no
handle is yielded twice. -/
theorem traverseFuel_nodup (g : Graph) (t : Nat) :
    ∀ (fuel : Nat) (queue : List AnyIndex) (visited : Finset AnyIndex)
      (out : List AnyIndex), traverseFuel g t fuel queue visited = some out →
      out.Nodup ∧ ∀ x ∈ out, x ∉ visited := by
  intro fuel
  induction fuel with
  | zero => intro queue visited out h; exact absurd h (by simp [traverseFuel])
  | succ n ih =>
    intro queue visited out h
    match queue with
    | [] =>
      rw [traverseFuel] at h
      cases h
      simp
    | x :: rest =>
      rw [traverseFuel] at h
      by_cases hx : x ∈ visited
      · rw [if_pos hx] at h
        exact ih rest visited out h
      · rw [if_neg hx] at h
        rcases Option.map_eq_some'.mp h with ⟨out', hout', rfl⟩
        obtain ⟨hnd, hfresh⟩ := ih _ _ _ hout'
        refine ⟨List.nodup_cons.mpr ⟨fun hxm => ?_, hnd⟩, ?_⟩
        · exact hfresh x hxm (Finset.mem_insert_self x visited)
        · intro y hy
          rcases List.mem_cons.mp hy with rfl | hy
          · exact hx
          · exact fun hyv => hfresh y hy (Finset.mem_insert_of_mem hyv)

/-- Soundness: every yielded handle is reachable from some handle of the
queue. -/
theorem traverseFuel_sound (g : Graph) (t : Nat) :
    ∀ (fuel : Nat) (queue : List AnyIndex) (visited : Finset AnyIndex)
      (out : List AnyIndex), traverseFuel g t fuel queue visited = some out →
      ∀ x ∈ out, ∃ q ∈ queue, ReachC g t q x := by
  intro fuel
  induction fuel with
  | zero => intro queue visited out h; exact absurd h (by simp [traverseFuel])
  | succ n ih =>
    intro queue visited out h x hx
    match queue with
    | [] =>
      rw [traverseFuel] at h
      cases h
      simp at hx
    | y :: rest =>
      rw [traverseFuel] at h
      by_cases hy : y ∈ visited
      · rw [if_pos hy] at h
        obtain ⟨q, hq, hr⟩ := ih _ _ _ h x hx
        exact ⟨q, List.mem_cons_of_mem _ hq, hr⟩
      · rw [if_neg hy] at h
        rcases Option.map_eq_some'.mp h with ⟨out', hout', rfl⟩
        rcases List.mem_cons.mp hx with rfl | hx
        · exact ⟨x, List.mem_cons_self x rest, Relation.ReflTransGen.refl⟩
        · obtain ⟨q, hq, hr⟩ := ih _ _ _ hout' x hx
          rcases List.mem_append.mp hq with hq | hq
          · exact ⟨q, List.mem_cons_of_mem _ hq, hr⟩
          · exact ⟨y, List.mem_cons_self y rest,
              Relation.ReflTransGen.head hq hr⟩

/-- Every handle of the queue ends up visited or yielded. -/
theorem traverseFuel_covers (g : Graph) (t : Nat) :
    ∀ (fuel : Nat) (queue : List AnyIndex) (visited : Finset AnyIndex)
      (out : List AnyIndex), traverseFuel g t fuel queue visited = some out →
      ∀ q ∈ queue, q ∈ visited ∨ q ∈ out := by
  intro fuel
  induction fuel with
  | zero => intro queue visited out h; exact absurd h (by simp [traverseFuel])
  | succ n ih =>
    intro queue visited out h q hq
    match queue with
    | [] => simp at hq
    | x :: rest =>
      rw [traverseFuel] at h
      by_cases hx : x ∈ visited
      · rw [if_pos hx] at h
        rcases List.mem_cons.mp hq with rfl | hq
        · exact Or.inl hx
        · exact ih _ _ _ h q hq
      · rw [if_neg hx] at h
        rcases Option.map_eq_some'.mp h with ⟨out', hout', rfl⟩
        rcases List.mem_cons.mp hq with rfl | hq
        · exact Or.inr (List.mem_cons_self q out')
        · rcases ih _ _ _ hout' q (List.mem_append_left _ hq) with hv | ho
          · rcases Finset.mem_insert.mp hv with rfl | hv
            · exact Or.inr (List.mem_cons_self q out')
            · exact Or.inl hv
          · exact Or.inr (List.mem_cons_of_mem _ ho)

/-- Completeness: provided the visited set is closed into the queue
(every neighbor of a visited handle is visited or queued), every handle
reachable from the queue or the visited set ends up visited or yielded. -/
theorem traverseFuel_complete (g : Graph) (t : Nat) :
    ∀ (fuel : Nat) (queue : List AnyIndex) (visited : Finset AnyIndex)
      (out : List AnyIndex), traverseFuel g t fuel queue visited = some out →
      (∀ v ∈ visited, ∀ w, stepRel g t v w → w ∈ visited ∨ w ∈ queue) →
      ∀ q x, ReachC g t q x → (q ∈ queue ∨ q ∈ visited) →
        x ∈ visited ∨ x ∈ out := by
  intro fuel
  induction fuel with
  | zero => intro queue visited out h; exact absurd h (by simp [traverseFuel])
  | succ n ih =>
    intro queue visited out h hInv q x hreach hq
    match queue with
    | [] =>
      rw [traverseFuel] at h
      cases h
      replace hq : q ∈ visited := hq.elim (fun hq => absurd hq (by simp)) id
      left
      induction hreach using Relation.ReflTransGen.head_induction_on with
      | refl => exact hq
      | head hstep htail ihr =>
        rename_i a c
        rcases hInv a hq c hstep with hc | hc
        · exact ihr hc
        · exact absurd hc (by simp)
    | y :: rest =>
      rw [traverseFuel] at h
      by_cases hy : y ∈ visited
      · rw [if_pos hy] at h
        refine ih _ _ _ h ?_ q x hreach ?_
        · intro v hv w hw
          rcases hInv v hv w hw with h1 | h1
          · exact Or.inl h1
          · rcases List.mem_cons.mp h1 with rfl | h1
            · exact Or.inl hy
            · exact Or.inr h1
        · rcases hq with hq | hq
          · rcases List.mem_cons.mp hq with rfl | hq
            · exact Or.inr hy
            · exact Or.inl hq
          · exact Or.inr hq
      · rw [if_neg hy] at h
        rcases Option.map_eq_some'.mp h with ⟨out', hout', rfl⟩
        have hclosed : ∀ v ∈ insert y visited, ∀ w, stepRel g t v w →
            w ∈ insert y visited ∨ w ∈ rest ++ g.relations_outgoing t y := by
          intro v hv w hw
          rcases Finset.mem_insert.mp hv with rfl | hv
          · exact Or.inr (List.mem_append_right _ hw)
          · rcases hInv v hv w hw with h1 | h1
            · exact Or.inl (Finset.mem_insert_of_mem h1)
            · rcases List.mem_cons.mp h1 with rfl | h1
              · exact Or.inl (Finset.mem_insert_self w visited)
              · exact Or.inr (List.mem_append_left _ h1)
        have hq' : q ∈ rest ++ g.relations_outgoing t y ∨ q ∈ insert y visited := by
          rcases hq with hq | hq
          · rcases List.mem_cons.mp hq with rfl | hq
            · exact Or.inr (Finset.mem_insert_self q visited)
            · exact Or.inl (List.mem_append_left _ hq)
          · exact Or.inr (Finset.mem_insert_of_mem hq)
        rcases ih _ _ _ hout' hclosed q x hreach hq' with hv | ho
        · rcases Finset.mem_insert.mp hv with rfl | hv
          · exact Or.inr (List.mem_cons_self x out')
          · exact Or.inl hv
        · exact Or.inr (List.mem_cons_of_mem _ ho)

/-- C4: `relations_traverse(start)` is the breadth-first enumeration of
category `T`'s outgoing edges from `start`: it is a finite list that
yields `start` first, yields every handle at most once even in a cyclic
graph, and contains exactly the handles reachable from `start` (start
itself included). -/
theorem C4_traverse_bfs (g : Graph) (t : Nat) (start : AnyIndex) :
    (g.relations_traverse t start).head? = some start ∧
    (g.relations_traverse t start).Nodup ∧
    ∀ x, x ∈ g.relations_traverse t start ↔ ReachC g t start x := by
  have hsome : (traverseFuel g t (traverseAmount g t start) [start] ∅).isSome := by
    refine traverseFuel_isSome g t (insert start (catTargets g t).toFinset)
      (fun y hy => Finset.mem_insert_of_mem (List.mem_toFinset.mpr hy)) _ _ _
      (fun q hq => ?_) ?_
    · rcases List.mem_singleton.mp hq with rfl
      exact Finset.mem_insert_self q _
    · rw [traverseAmount]
      simp only [Finset.sdiff_empty, List.length_singleton]
      omega
  obtain ⟨out, hout⟩ := Option.isSome_iff_exists.mp hsome
  have houtD : g.relations_traverse t start = out := by
    rw [Graph.relations_traverse, hout, Option.getD_some]
  rw [houtD]
  refine ⟨traverseFuel_head g t _ _ _ _ (Finset.not_mem_empty start) hout,
    (traverseFuel_nodup g t _ _ _ _ hout).1, fun x => ⟨fun hx => ?_, fun hx => ?_⟩⟩
  · obtain ⟨q, hq, hr⟩ := traverseFuel_sound g t _ _ _ _ hout x hx
    rcases List.mem_singleton.mp hq with rfl
    exact hr
  · have := traverseFuel_complete g t _ _ _ _ hout
      (fun v hv => absurd hv (Finset.not_mem_empty v)) start x hx
      (Or.inl (List.mem_singleton_self start))
    rcases this with hv | ho
    · exact absurd hv (Finset.not_mem_empty x)
    · exact ho

/-! ### Depth-first cycle search: basic shape of the walk -/

/-- Through the target loop the visited set grows, and a `None` outcome
pops exactly one path element — given the same facts about the
walker. -/
theorem walkTargetsGo_basic
    (wk : Finset AnyIndex → List AnyIndex → AnyIndex → Option WalkRes)
    (hwk : ∀ v p s r, wk v p s = some r → v ⊆ r.1 ∧ (r.2.2 = none → r.2.1 = p)) :
    ∀ (targets : List AnyIndex) (visited : Finset AnyIndex) (path : List AnyIndex)
      (r : WalkRes), walkTargetsGo wk visited path targets = some r →
      visited ⊆ r.1 ∧ (r.2.2 = none → r.2.1 = path.dropLast) := by
  intro targets
  induction targets with
  | nil =>
    intro visited path r h
    rw [walkTargetsGo] at h
    cases h
    exact ⟨Finset.Subset.refl _, fun _ => rfl⟩
  | cons target rest ih =>
    intro visited path r h
    rw [walkTargetsGo] at h
    cases hidx : path.findIdx? (fun item => item == target) with
    | some i =>
      rw [hidx] at h
      cases h
      exact ⟨Finset.Subset.refl _, fun hn => absurd hn (by simp)⟩
    | none =>
      rw [hidx] at h
      cases hchild : wk visited path target with
      | none => rw [hchild] at h; exact absurd h (by simp)
      | some r2 =>
        rw [hchild] at h
        obtain ⟨v2, p2, oi⟩ := r2
        cases oi with
        | some i =>
          cases h
          exact ⟨(hwk _ _ _ _ hchild).1, fun hn => absurd hn (by simp)⟩
        | none =>
          obtain ⟨hv2, hp2⟩ := hwk _ _ _ _ hchild
          have hp2' : p2 = path := hp2 rfl
          obtain ⟨hsub, hres⟩ := ih v2 p2 r h
          exact ⟨hv2.trans hsub, fun hn => by rw [hres hn, hp2']⟩

/-- Visited growth and path restoration for `walk`: on a `None` outcome
the path is exactly as before the call and the source is visited. -/
theorem walkFuel_basic (g : Graph) (t : Nat) :
    ∀ (fuel : Nat) (visited : Finset AnyIndex) (path : List AnyIndex) (source : AnyIndex)
      (r : WalkRes), walkFuel g t fuel visited path source = some r →
      visited ⊆ r.1 ∧ (r.2.2 = none → r.2.1 = path ∧ source ∈ r.1) := by
  intro fuel
  induction fuel with
  | zero => intro _ _ _ r h; exact absurd h (by simp [walkFuel])
  | succ n ih =>
    intro visited path source r h
    rw [walkFuel] at h
    by_cases hs : source ∈ visited
    · rw [if_pos hs] at h
      cases h
      exact ⟨Finset.Subset.refl _, fun _ => ⟨rfl, hs⟩⟩
    · rw [if_neg hs] at h
      have hwk : ∀ v p s r', walkFuel g t n v p s = some r' →
          v ⊆ r'.1 ∧ (r'.2.2 = none → r'.2.1 = p) :=
        fun v p s r' hh => ⟨(ih v p s r' hh).1, fun hn => ((ih v p s r' hh).2 hn).1⟩
      obtain ⟨hsub, hres⟩ := walkTargetsGo_basic _ hwk _ _ _ _ h
      refine ⟨(Finset.subset_insert _ _).trans hsub, fun hn => ⟨?_, ?_⟩⟩
      · rw [hres hn]; exact List.dropLast_concat
      · exact hsub (Finset.mem_insert_self source visited)

/-- With enough fuel the target loop never runs out. -/
theorem walkTargetsGo_isSome (g : Graph) (t : Nat) (U : Finset AnyIndex) (fuel : Nat)
    (ihw : ∀ (visited : Finset AnyIndex) (path : List AnyIndex) (source : AnyIndex),
      source ∈ U → (U \ visited).card < fuel →
      (walkFuel g t fuel visited path source).isSome) :
    ∀ (targets : List AnyIndex) (visited : Finset AnyIndex) (path : List AnyIndex),
      (∀ y ∈ targets, y ∈ U) → (U \ visited).card < fuel →
      (walkTargetsGo (walkFuel g t fuel) visited path targets).isSome := by
  intro targets
  induction targets with
  | nil => intro visited path _ _; simp [walkTargetsGo]
  | cons target rest ih =>
    intro visited path hT hc
    rw [walkTargetsGo]
    cases hidx : path.findIdx? (fun item => item == target) with
    | some i => simp
    | none =>
      have hchild := ihw visited path target (hT target (List.mem_cons_self _ _)) hc
      obtain ⟨r, hr⟩ := Option.isSome_iff_exists.mp hchild
      rw [hr]
      obtain ⟨v2, p2, oi⟩ := r
      cases oi with
      | some i => simp
      | none =>
        have hsub := (walkFuel_basic g t fuel visited path target _ hr).1
        refine ih v2 p2 (fun y hy => hT y (List.mem_cons_of_mem _ hy)) ?_
        calc (U \ v2).card
            ≤ (U \ visited).card :=
              Finset.card_le_card (Finset.sdiff_subset_sdiff (Finset.Subset.refl U) hsub)
          _ < fuel := hc

/-- With enough fuel `walk` never runs out. -/
theorem walkFuel_isSome (g : Graph) (t : Nat) (U : Finset AnyIndex)
    (hU : ∀ y ∈ catTargets g t, y ∈ U) :
    ∀ (fuel : Nat) (visited : Finset AnyIndex) (path : List AnyIndex) (source : AnyIndex),
      source ∈ U → (U \ visited).card < fuel →
      (walkFuel g t fuel visited path source).isSome := by
  intro fuel
  induction fuel with
  | zero => intro _ _ _ _ h; exact absurd h (by omega)
  | succ n ih =>
    intro visited path source hs hc
    rw [walkFuel]
    by_cases hv : source ∈ visited
    · rw [if_pos hv]; simp
    · rw [if_neg hv]
      refine walkTargetsGo_isSome g t U n ih _ _ _
        (fun y hy => hU y (relations_outgoing_subset g t source y hy)) ?_
      have hmem : source ∈ U \ visited := Finset.mem_sdiff.mpr ⟨hs, hv⟩
      have hcard : (U \ insert source visited).card + 1 = (U \ visited).card := by
        rw [Finset.sdiff_insert]
        exact Finset.card_erase_add_one hmem
      omega

/-! ### Depth-first cycle search: soundness of a reported repeat -/

/-- Walking a connected chain from its head reaches its last element. -/
theorem chain_head_reach_getLast {R : AnyIndex → AnyIndex → Prop} :
    ∀ (l : List AnyIndex), l.Chain' R → ∀ hne : l ≠ [],
      Relation.ReflTransGen R (l.head hne) (l.getLast hne) := by
  intro l
  induction l with
  | nil => intro _ hne; exact absurd rfl hne
  | cons a tl ih =>
    intro hch hne
    cases tl with
    | nil =>
      rw [List.getLast_singleton]
      exact Relation.ReflTransGen.refl
    | cons b tl2 =>
      obtain ⟨hab, hch2⟩ := List.chain'_cons.mp hch
      rw [List.getLast_cons (by simp : b :: tl2 ≠ [])]
      exact Relation.ReflTransGen.head hab (ih hch2 (by simp))

/-- Soundness of the target loop: a reported repeat position describes a
closed chain of reachable nodes, given the same fact about the
walker. -/
theorem walkTargetsGo_some (g : Graph) (t : Nat) (start : AnyIndex)
    (wk : Finset AnyIndex → List AnyIndex → AnyIndex → Option WalkRes)
    (hwkb : ∀ v p s r, wk v p s = some r → v ⊆ r.1 ∧ (r.2.2 = none → r.2.1 = p))
    (hwks : ∀ v p s v2 p2 j, wk v p s = some (v2, p2, some j) →
      p.Chain' (stepRel g t) → (∀ x ∈ p, ReachC g t start x) → ReachC g t start s →
      (∀ hne : p ≠ [], stepRel g t (p.getLast hne) s) → CycleOut g t start p2 j) :
    ∀ (targets : List AnyIndex) (visited : Finset AnyIndex) (path : List AnyIndex)
      (v' : Finset AnyIndex) (p' : List AnyIndex) (i : Nat),
      walkTargetsGo wk visited path targets = some (v', p', some i) →
      path.Chain' (stepRel g t) → (∀ x ∈ path, ReachC g t start x) →
      ∀ hne : path ≠ [], (∀ y ∈ targets, stepRel g t (path.getLast hne) y) →
      CycleOut g t start p' i := by
  intro targets
  induction targets with
  | nil =>
    intro visited path v' p' i h
    rw [walkTargetsGo] at h
    simp at h
  | cons target rest ih =>
    intro visited path v' p' i h hch hreach hne hT
    rw [walkTargetsGo] at h
    cases hidx : path.findIdx? (fun item => item == target) with
    | some j =>
      rw [hidx] at h
      simp only [Option.some.injEq, Prod.mk.injEq] at h
      obtain ⟨rfl, rfl, hji⟩ := h
      rw [← hji]
      obtain ⟨hlt, hbeq, _⟩ := List.findIdx?_eq_some_iff_getElem.mp hidx
      have hget : path.get ⟨j, hlt⟩ = target := by
        rw [List.get_eq_getElem]
        exact beq_iff_eq.mp hbeq
      refine ⟨hne, hch, hreach, hlt, ?_⟩
      rw [hget]
      exact hT target (List.mem_cons_self _ _)
    | none =>
      rw [hidx] at h
      cases hchild : wk visited path target with
      | none => rw [hchild] at h; exact absurd h (by simp)
      | some r2 =>
        rw [hchild] at h
        obtain ⟨v2, p2, oi⟩ := r2
        cases oi with
        | some j =>
          simp only [Option.some.injEq, Prod.mk.injEq] at h
          obtain ⟨rfl, rfl, hji⟩ := h
          rw [← hji]
          refine hwks _ _ _ _ _ _ hchild hch hreach ?_ ?_
          · exact Relation.ReflTransGen.tail (hreach _ (List.getLast_mem hne))
              (hT target (List.mem_cons_self _ _))
          · intro _
            exact hT target (List.mem_cons_self _ _)
        | none =>
          obtain ⟨hv2, hp2⟩ := hwkb _ _ _ _ hchild
          have hp2' : p2 = path := hp2 rfl
          rw [hp2'] at h
          exact ih v2 path v' p' i h hch hreach hne
            (fun y hy => hT y (List.mem_cons_of_mem _ hy))

/-- Soundness of `walk`: a reported repeat position describes a closed
chain of nodes reachable from `start`. -/
theorem walkFuel_some (g : Graph) (t : Nat) (start : AnyIndex) :
    ∀ (fuel : Nat) (visited : Finset AnyIndex) (path : List AnyIndex) (source : AnyIndex)
      (v' : Finset AnyIndex) (p' : List AnyIndex) (i : Nat),
      walkFuel g t fuel visited path source = some (v', p', some i) →
      path.Chain' (stepRel g t) → (∀ x ∈ path, ReachC g t start x) →
      ReachC g t start source →
      (∀ hne : path ≠ [], stepRel g t (path.getLast hne) source) →
      CycleOut g t start p' i := by
  intro fuel
  induction fuel with
  | zero => intro _ _ _ _ _ _ h; exact absurd h (by simp [walkFuel])
  | succ n ih =>
    intro visited path source v' p' i h hch hreach hrs hlast
    rw [walkFuel] at h
    by_cases hs : source ∈ visited
    · rw [if_pos hs] at h
      simp at h
    · rw [if_neg hs] at h
      have hwkb : ∀ v p s r', walkFuel g t n v p s = some r' →
          v ⊆ r'.1 ∧ (r'.2.2 = none → r'.2.1 = p) :=
        fun v p s r' hh => ⟨(walkFuel_basic g t n v p s r' hh).1,
          fun hn => ((walkFuel_basic g t n v p s r' hh).2 hn).1⟩
      refine walkTargetsGo_some g t start _ hwkb
        (fun v p s v2 p2 j hh c r rs rl => ih v p s v2 p2 j hh c r rs rl)
        _ _ _ _ _ _ h ?_ ?_ (by simp) ?_
      · rw [List.chain'_append]
        refine ⟨hch, List.chain'_singleton _, ?_⟩
        intro x hx y hy
        simp only [List.head?_cons, Option.mem_def, Option.some.injEq] at hy
        subst hy
        have hpne : path ≠ [] := by
          intro hnil
          rw [hnil] at hx
          simp at hx
        rw [Option.mem_def, List.getLast?_eq_getLast path hpne] at hx
        injection hx with hx
        subst hx
        exact hlast hpne
      · intro x hx
        rcases List.mem_append.mp hx with hx | hx
        · exact hreach x hx
        · rw [List.mem_singleton.mp hx]
          exact hrs
      · intro y hy
        have hlg : (path ++ [source]).getLast (by simp) = source := List.getLast_concat _
        rw [hlg]
        exact hy

/-! ### Depth-first cycle search: completeness (no repeat means no
reachable cycle) -/

/-- Under the closure half of the invariant, reachability preserves
being finished. -/
theorem ReachC_finished (g : Graph) (t : Nat) (visited : Finset AnyIndex)
    (path : List AnyIndex)
    (hclosed : ∀ v, Finished visited path v → ∀ w, stepRel g t v w →
      Finished visited path w)
    {a b : AnyIndex} (h : ReachC g t a b) (ha : Finished visited path a) :
    Finished visited path b := by
  induction h with
  | refl => exact ha
  | tail _ hstep ih => exact hclosed _ ih _ hstep

/-- Marking an unvisited source and pushing it on the path leaves the
finished set unchanged, hence preserves the invariant. -/
theorem walkInv_push (g : Graph) (t : Nat) (visited : Finset AnyIndex)
    (path : List AnyIndex) (s : AnyIndex) (hs : s ∉ visited)
    (hInv : WalkInv g t visited path) :
    WalkInv g t (insert s visited) (path ++ [s]) := by
  have hfin : ∀ v, Finished (insert s visited) (path ++ [s]) v →
      Finished visited path v := by
    rintro v ⟨hv, hvp⟩
    have hvs : v ≠ s := fun hvs =>
      hvp (by rw [hvs]; exact List.mem_append_right _ (List.mem_singleton.mpr rfl))
    refine ⟨?_, fun hmem => hvp (List.mem_append_left _ hmem)⟩
    rcases Finset.mem_insert.mp hv with rfl | hv
    · exact absurd rfl hvs
    · exact hv
  constructor
  · intro v hv w hw
    have hfw := hInv.1 _ (hfin v hv) _ hw
    refine ⟨Finset.mem_insert_of_mem hfw.1, fun hmem => ?_⟩
    rcases List.mem_append.mp hmem with hmem | hmem
    · exact hfw.2 hmem
    · rw [List.mem_singleton.mp hmem] at hfw
      exact hs hfw.1
  · intro v hv
    exact hInv.2 _ (hfin v hv)

/-- Popping the source after all of its targets are finished restores
the invariant for the shorter path: the source joins the finished set
without breaking closure or introducing a reachable cycle. -/
theorem walkInv_pop (g : Graph) (t : Nat) (v' : Finset AnyIndex)
    (path : List AnyIndex) (s : AnyIndex)
    (hInv : WalkInv g t v' (path ++ [s])) (hsv : s ∈ v')
    (hT : ∀ y, stepRel g t s y → y ∈ v' ∧ y ∉ path ++ [s]) :
    WalkInv g t v' path := by
  have hext : ∀ v, Finished v' path v → v ≠ s → Finished v' (path ++ [s]) v := by
    rintro v ⟨hvv, hvp⟩ hvs
    refine ⟨hvv, fun hmem => ?_⟩
    rcases List.mem_append.mp hmem with hmem | hmem
    · exact hvp hmem
    · exact hvs (List.mem_singleton.mp hmem)
  have hstep : ∀ v, Finished v' path v → ∀ w, stepRel g t v w →
      Finished v' path w := by
    intro v hv w hw
    by_cases hvs : v = s
    · subst hvs
      obtain ⟨hw1, hw2⟩ := hT w hw
      exact ⟨hw1, fun hmem => hw2 (List.mem_append_left _ hmem)⟩
    · obtain ⟨hw1, hw2⟩ := hInv.1 _ (hext v hv hvs) _ hw
      exact ⟨hw1, fun hmem => hw2 (List.mem_append_left _ hmem)⟩
  refine ⟨hstep, ?_⟩
  intro v hv
  by_cases hvs : v = s
  · rw [hvs]
    rintro ⟨u, w, hsu, huw, hwu⟩
    rcases Relation.ReflTransGen.cases_head hsu with heq | ⟨y, hsy, hyu⟩
    · subst heq
      obtain ⟨hw1, hw2⟩ := hT w huw
      have hfs := ReachC_finished g t v' _ hInv.1 hwu ⟨hw1, hw2⟩
      exact hfs.2 (List.mem_append_right _ (List.mem_singleton.mpr rfl))
    · obtain ⟨hy1, hy2⟩ := hT y hsy
      exact hInv.2 _ ⟨hy1, hy2⟩ ⟨u, w, hyu, huw, hwu⟩
  · exact hInv.2 _ (hext v hv hvs)

/-- Completeness of the target loop: a `None` outcome finishes every
target and preserves the invariant, given the same facts about the
walker. -/
theorem walkTargetsGo_none (g : Graph) (t : Nat)
    (wk : Finset AnyIndex → List AnyIndex → AnyIndex → Option WalkRes)
    (hwkn : ∀ v p s v2 p2, wk v p s = some (v2, p2, none) → WalkInv g t v p → s ∉ p →
      v ⊆ v2 ∧ s ∈ v2 ∧ p2 = p ∧ WalkInv g t v2 p) :
    ∀ (targets : List AnyIndex) (visited : Finset AnyIndex) (path : List AnyIndex)
      (v' : Finset AnyIndex) (p' : List AnyIndex),
      walkTargetsGo wk visited path targets = some (v', p', none) →
      WalkInv g t visited path →
      visited ⊆ v' ∧ p' = path.dropLast ∧ WalkInv g t v' path ∧
      ∀ y ∈ targets, y ∈ v' ∧ y ∉ path := by
  intro targets
  induction targets with
  | nil =>
    intro visited path v' p' h hInv
    rw [walkTargetsGo] at h
    simp only [Option.some.injEq, Prod.mk.injEq] at h
    obtain ⟨rfl, rfl, -⟩ := h
    exact ⟨Finset.Subset.refl _, rfl, hInv, by simp⟩
  | cons target rest ih =>
    intro visited path v' p' h hInv
    rw [walkTargetsGo] at h
    cases hidx : path.findIdx? (fun item => item == target) with
    | some j => rw [hidx] at h; simp at h
    | none =>
      rw [hidx] at h
      have htarget : target ∉ path := by
        intro hmem
        have := List.findIdx?_eq_none_iff.mp hidx target hmem
        simp at this
      cases hchild : wk visited path target with
      | none => rw [hchild] at h; exact absurd h (by simp)
      | some r2 =>
        rw [hchild] at h
        obtain ⟨v2, p2, oi⟩ := r2
        cases oi with
        | some j => simp at h
        | none =>
          obtain ⟨hv2, hsv2, hp2, hInv2⟩ := hwkn _ _ _ _ _ hchild hInv htarget
          rw [hp2] at h
          obtain ⟨hsub, hp', hInv', hrest⟩ := ih v2 path v' p' h hInv2
          refine ⟨hv2.trans hsub, hp', hInv', fun y hy => ?_⟩
          rcases List.mem_cons.mp hy with rfl | hy
          · exact ⟨hsub hsv2, htarget⟩
          · exact hrest y hy

/-- Completeness of `walk`: a `None` outcome restores the path, finishes
the source, and preserves the invariant — in particular no cycle is
reachable from the source. -/
theorem walkFuel_none (g : Graph) (t : Nat) :
    ∀ (fuel : Nat) (visited : Finset AnyIndex) (path : List AnyIndex)
      (source : AnyIndex) (v' : Finset AnyIndex) (p' : List AnyIndex),
      walkFuel g t fuel visited path source = some (v', p', none) →
      WalkInv g t visited path → source ∉ path →
      visited ⊆ v' ∧ source ∈ v' ∧ p' = path ∧ WalkInv g t v' path := by
  intro fuel
  induction fuel with
  | zero => intro _ _ _ _ _ h; exact absurd h (by simp [walkFuel])
  | succ n ih =>
    intro visited path source v' p' h hInv hsp
    rw [walkFuel] at h
    by_cases hs : source ∈ visited
    · rw [if_pos hs] at h
      simp only [Option.some.injEq, Prod.mk.injEq] at h
      obtain ⟨rfl, rfl, -⟩ := h
      exact ⟨Finset.Subset.refl _, hs, rfl, hInv⟩
    · rw [if_neg hs] at h
      obtain ⟨hsub, hp', hInv', hT⟩ :=
        walkTargetsGo_none g t _ (fun v p s v2 p2 hh hi hsp2 => ih v p s v2 p2 hh hi hsp2)
          _ _ _ _ _ h (walkInv_push g t visited path source hs hInv)
      refine ⟨(Finset.subset_insert _ _).trans hsub,
        hsub (Finset.mem_insert_self source visited), ?_, ?_⟩
      · rw [hp']; exact List.dropLast_concat
      · exact walkInv_pop g t v' path source hInv'
          (hsub (Finset.mem_insert_self source visited))
          (fun y hy => hT y hy)

/-- C5: `find_cycle(start)` returns an empty sequence exactly when no
cycle is reachable from `start` via the category's outgoing edges;
otherwise it returns the sub-path of the depth-first search path from
the first repeated neighbor's position to the path's end — a genuine
closed walk (consecutive edges plus the closing edge) of handles
reachable from `start`.  In particular, for the diamond A→B, A→C, B→D,
C→D `find_cycles` yields nothing, and after adding D→A it yields only
non-empty cycles, one of which contains A, D, and B or C. -/
theorem C5_find_cycle_spec (g : Graph) (t : Nat) (start : AnyIndex) :
    ((g.find_cycle t start = [] ↔ ¬ HasCycleFrom g t start) ∧
      (g.find_cycle t start ≠ [] →
        IsCycleList g t (g.find_cycle t start) ∧
        ∀ x ∈ g.find_cycle t start, ReachC g t start x)) ∧
    gDiamond.find_cycles 0 = [] ∧
    (∀ c ∈ gDiamondBack.find_cycles 0, c ≠ []) ∧
    (∃ c ∈ gDiamondBack.find_cycles 0, hA ∈ c ∧ hD ∈ c ∧ (hB ∈ c ∨ hC ∈ c)) := by
  refine ⟨?_, by decide, by decide, by decide⟩
  have hU : ∀ y ∈ catTargets g t, y ∈ insert start (catTargets g t).toFinset :=
    fun y hy => Finset.mem_insert_of_mem (List.mem_toFinset.mpr hy)
  have hsome := walkFuel_isSome g t _ hU (walkAmount g t start) ∅ [] start
    (Finset.mem_insert_self _ _)
    (by rw [walkAmount]; simp only [Finset.sdiff_empty]; omega)
  obtain ⟨⟨v', p', oi⟩, hr⟩ := Option.isSome_iff_exists.mp hsome
  cases oi with
  | none =>
    obtain ⟨-, hstart, hp, hInv⟩ := walkFuel_none g t _ ∅ [] start v' p' hr
      ⟨by rintro v ⟨hv, -⟩; exact absurd hv (Finset.not_mem_empty v),
        by rintro v ⟨hv, -⟩ _; exact absurd hv (Finset.not_mem_empty v)⟩
      (List.not_mem_nil start)
    subst hp
    have hres : g.find_cycle t start = [] := by
      rw [Graph.find_cycle, hr]
    have hnc : ¬ HasCycleFrom g t start :=
      hInv.2 start ⟨hstart, List.not_mem_nil start⟩
    refine ⟨by rw [hres]; exact iff_of_true rfl hnc, fun hne => absurd hres hne⟩
  | some i =>
    obtain ⟨hne, hch, hreach, hi, hclose⟩ := walkFuel_some g t start _ ∅ [] start v' p' i
      hr List.chain'_nil (by simp) Relation.ReflTransGen.refl
      (fun hne0 => absurd rfl hne0)
    have hres : g.find_cycle t start = p'.drop i := by
      rw [Graph.find_cycle, hr]
    have hdropne : p'.drop i ≠ [] := by
      intro hnil
      have := List.drop_eq_nil_iff.mp hnil
      omega
    have hchd : (p'.drop i).Chain' (stepRel g t) := by
      have hsplit := hch
      conv at hsplit => rw [← List.take_append_drop i p']
      exact (List.chain'_append.mp hsplit).2.1
    have hheadeq : (p'.drop i).head? = some (p'.get ⟨i, hi⟩) := by
      rw [List.head?_drop, List.getElem?_eq_getElem hi, List.get_eq_getElem]
    have hlasteq : (p'.drop i).getLast? = some (p'.getLast hne) := by
      rw [List.getLast?_drop, if_neg (by omega), List.getLast?_eq_getLast p' hne]
    have hreachcycle : Relation.ReflTransGen (stepRel g t)
        (p'.get ⟨i, hi⟩) (p'.getLast hne) := by
      have hh := chain_head_reach_getLast (p'.drop i) hchd hdropne
      have h1 : (p'.drop i).head hdropne = p'.get ⟨i, hi⟩ := by
        have := List.head?_eq_head hdropne
        rw [hheadeq] at this
        injection this with h1x
        exact h1x.symm
      have h2 : (p'.drop i).getLast hdropne = p'.getLast hne := by
        have := List.getLast?_eq_getLast (p'.drop i) hdropne
        rw [hlasteq] at this
        injection this with h2
        exact h2.symm
      rwa [h1, h2] at hh
    have hcyc : HasCycleFrom g t start :=
      ⟨p'.getLast hne, p'.get ⟨i, hi⟩, hreach _ (List.getLast_mem hne), hclose,
        hreachcycle⟩
    refine ⟨by rw [hres]; exact iff_of_false hdropne (not_not_intro hcyc), fun _ => ?_⟩
    rw [hres]
    refine ⟨⟨hdropne, hchd, ?_⟩, ?_⟩
    · intro a b ha hb
      rw [hlasteq] at ha
      rw [hheadeq] at hb
      injection ha with ha
      injection hb with hb
      rw [← ha, ← hb]
      exact hclose
    · intro x hx
      exact hreach x (List.mem_of_mem_drop hx)

/-! ### Prefab: generic helpers about `mapM` over `Except` -/

/-- `bind` on a success passes the value on. -/
theorem except_bind_ok {α β : Type} (a : α) (f : α → Except PrefabError β) :
    (Except.ok a >>= f) = f a := rfl

/-- `bind` on `pure` passes the value on. -/
theorem except_pure_bind {α β : Type} (a : α) (f : α → Except PrefabError β) :
    ((pure a : Except PrefabError α) >>= f) = f a := rfl

/-- `bind` on an error short-circuits. -/
theorem except_bind_err {α β : Type} (e : PrefabError) (f : α → Except PrefabError β) :
    ((Except.error e : Except PrefabError α) >>= f) = Except.error e := rfl

/-- A resolvable hash resolves to its registered name. -/
theorem resolveHash_some (reg : Registry) (th n : Nat)
    (h : regFindByHash reg th = some n) : resolveHash reg th = Except.ok n := by
  unfold resolveHash
  rw [h]

/-- An unresolvable hash fails with `CouldNotFindType`. -/
theorem resolveHash_none (reg : Registry) (th : Nat)
    (h : regFindByHash reg th = none) :
    resolveHash reg th = Except.error (PrefabError.CouldNotFindType th) := by
  unfold resolveHash
  rw [h]

/-- A resolvable name resolves to its registered hash. -/
theorem resolveName_some (reg : Registry) (n th : Nat)
    (h : regFindByName reg n = some th) : resolveName reg n = Except.ok th := by
  unfold resolveName
  rw [h]

/-- Serialization succeeds on supported types. -/
theorem serializeValue_ok (ser : SerRegistry) (name th v : Nat) (h : th ∈ ser) :
    serializeValue ser name th v = Except.ok v := by
  unfold serializeValue
  rw [if_pos h]

/-- Deserialization succeeds on supported types. -/
theorem deserializeValue_ok (ser : SerRegistry) (name th v : Nat) (h : th ∈ ser) :
    deserializeValue ser name th v = Except.ok v := by
  unfold deserializeValue
  rw [if_pos h]

/-- `mapM` succeeds pointwise. -/
theorem mapM_ok_of_pointwise {α β : Type} (f : α → Except PrefabError β) (hfun : α → β) :
    ∀ l : List α, (∀ x ∈ l, f x = Except.ok (hfun x)) →
      l.mapM f = Except.ok (l.map hfun) := by
  intro l
  induction l with
  | nil => intro _; rfl
  | cons a rest ih =>
    intro h
    rw [List.mapM_cons, h a (List.mem_cons_self _ _), ih (fun x hx => h x (List.mem_cons_of_mem _ hx))]
    rfl

/-- `mapM` succeeds when every element succeeds. -/
theorem mapM_exists_ok {α β : Type} (f : α → Except PrefabError β) :
    ∀ l : List α, (∀ x ∈ l, ∃ y, f x = Except.ok y) →
      ∃ ys, l.mapM f = Except.ok ys := by
  intro l
  induction l with
  | nil => intro _; exact ⟨[], rfl⟩
  | cons a rest ih =>
    intro h
    obtain ⟨y, hy⟩ := h a (List.mem_cons_self _ _)
    obtain ⟨ys, hys⟩ := ih (fun x hx => h x (List.mem_cons_of_mem _ hx))
    refine ⟨y :: ys, ?_⟩
    rw [List.mapM_cons, hy, hys]
    rfl

/-- `mapM` over a list ending in a failing element fails with that
element's error. -/
theorem mapM_append_error {α β : Type} (f : α → Except PrefabError β)
    (z : α) (err : PrefabError) (hz : f z = Except.error err) :
    ∀ l : List α, (∀ x ∈ l, ∃ y, f x = Except.ok y) →
      (l ++ [z]).mapM f = Except.error err := by
  intro l
  induction l with
  | nil =>
    intro _
    rw [List.nil_append, List.mapM_cons, hz]
    rfl
  | cons a rest ih =>
    intro h
    obtain ⟨y, hy⟩ := h a (List.mem_cons_self _ _)
    rw [List.cons_append, List.mapM_cons, hy,
      ih (fun x hx => h x (List.mem_cons_of_mem _ hx))]
    rfl

/-! ### C10: `unrelate` on a fresh category -/

/-- A key absent from the head of an association list is looked up in
the tail. -/
theorem lookup_append_of_none {β : Type} (l1 l2 : List (Nat × β)) (k : Nat)
    (h : l1.lookup k = none) : (l1 ++ l2).lookup k = l2.lookup k := by
  induction l1 with
  | nil => rfl
  | cons e rest ih =>
    obtain ⟨k', v⟩ := e
    rw [List.cons_append]
    by_cases hk : k = k'
    · subst hk
      rw [List.lookup, beq_self_eq_true] at h
      exact absurd h (by simp)
    · rw [List.lookup, beq_eq_false_iff_ne.mpr hk] at h
      rw [List.lookup, beq_eq_false_iff_ne.mpr hk]
      exact ih h

/-- `entry(T).or_default()` on an absent key appends a fresh entry. -/
theorem updateTable_absent (rs : List (Nat × RelationsTable)) (T : Nat)
    (f : RelationsTable → RelationsTable) (h : rs.lookup T = none) :
    updateTable rs T f = rs ++ [(T, f RelationsTable.empty)] := by
  induction rs with
  | nil => rfl
  | cons e rest ih =>
    obtain ⟨t', tab⟩ := e
    rw [updateTable]
    by_cases hk : T = t'
    · subst hk
      rw [List.lookup, beq_self_eq_true] at h
      exact absurd h (by simp)
    · rw [List.lookup, beq_eq_false_iff_ne.mpr hk] at h
      rw [if_neg (fun hc => hk hc.symm), ih h, List.cons_append]

/-- Node archetypes succeed when the type resolves and serializes. -/
theorem nodeArchetypeOf_ok (ser : SerRegistry) (reg : Registry)
    (e : Nat × List (Nat × Nat)) (hres : (regFindByHash reg e.1).isSome)
    (hser : e.1 ∈ ser) : ∃ y, nodeArchetypeOf ser reg e = Except.ok y := by
  obtain ⟨n, hn⟩ := Option.isSome_iff_exists.mp hres
  refine ⟨⟨n, e.2.map (fun s => s.1), e.2.map (fun s => s.2)⟩, ?_⟩
  rw [nodeArchetypeOf, resolveHash_some reg e.1 n hn, except_bind_ok,
    mapM_ok_of_pointwise (fun s => serializeValue ser n e.1 s.2) (fun s => s.2)
      e.2 (fun s _ => serializeValue_ok ser n e.1 s.2 hser),
    except_bind_ok]
  rfl

/-- One multimap side of a relation archetype succeeds when every
endpoint type resolves. -/
theorem tableToPrefab_ok (reg : Registry) (m : MultiMap)
    (h : ∀ en ∈ m, (regFindByHash reg en.1.type_hash).isSome ∧
      ∀ tgt ∈ en.2, (regFindByHash reg tgt.type_hash).isSome) :
    ∃ y, tableToPrefab reg m = Except.ok y := by
  rw [tableToPrefab]
  refine mapM_exists_ok _ m (fun en hen => ?_)
  obtain ⟨hs, ht⟩ := h en hen
  obtain ⟨sn, hsn⟩ := Option.isSome_iff_exists.mp hs
  have htgt := mapM_exists_ok
    (fun tgt => do
      let tname ← resolveHash reg tgt.type_hash
      pure ({ type_name := tname, index := tgt.index } : PrefabRelationsTableItem))
    en.2 (fun tgt htg => by
      obtain ⟨tn, htn⟩ := Option.isSome_iff_exists.mp (ht tgt htg)
      exact ⟨⟨tn, tgt.index⟩, by
        simp only [resolveHash_some reg tgt.type_hash tn htn, except_bind_ok]
        rfl⟩)
  obtain ⟨ys, hys⟩ := htgt
  refine ⟨⟨sn, en.1.index, ys⟩, ?_⟩
  rw [resolveHash_some reg en.1.type_hash sn hsn, except_bind_ok, hys, except_bind_ok]
  rfl

/-- Relation archetypes succeed when the category and all endpoint types
resolve. -/
theorem relationArchetypeOf_ok (reg : Registry) (e : Nat × RelationsTable)
    (hcat : (regFindByHash reg e.1).isSome)
    (hin : ∀ en ∈ e.2.incoming, (regFindByHash reg en.1.type_hash).isSome ∧
      ∀ tgt ∈ en.2, (regFindByHash reg tgt.type_hash).isSome)
    (hout : ∀ en ∈ e.2.outgoing, (regFindByHash reg en.1.type_hash).isSome ∧
      ∀ tgt ∈ en.2, (regFindByHash reg tgt.type_hash).isSome) :
    ∃ y, relationArchetypeOf reg e = Except.ok y := by
  obtain ⟨n, hn⟩ := Option.isSome_iff_exists.mp hcat
  obtain ⟨yi, hyi⟩ := tableToPrefab_ok reg e.2.incoming hin
  obtain ⟨yo, hyo⟩ := tableToPrefab_ok reg e.2.outgoing hout
  refine ⟨⟨n, yi, yo⟩, ?_⟩
  rw [relationArchetypeOf, resolveHash_some reg e.1 n hn, except_bind_ok, hyi,
    except_bind_ok, hyo, except_bind_ok]
  rfl

/-- C10: calling `unrelate` or `unrelate_all` with a never-used
category mutates the graph — `entry().or_default()` inserts an empty
relations table for the category — and a later `Prefab::from_graph`
then fails with `CouldNotFindType` for that category when it is not
registered, even though the graph holds no edge of that category. -/
theorem C10_unrelate_fresh_category (g : Graph) (T : Nat) (a b : AnyIndex)
    (ser : SerRegistry) (reg : Registry)
    (hT : g.relations.lookup T = none)
    (hreg : regFindByHash reg T = none)
    (hnodes : NodesResolvable g ser reg)
    (hcats : CatsResolvable g reg) :
    ((g.unrelate T a b).relations.lookup T = some RelationsTable.empty ∧
      Prefab.from_graph (g.unrelate T a b) ser reg =
        Except.error (PrefabError.CouldNotFindType T)) ∧
    ((g.unrelate_all T a).relations.lookup T = some RelationsTable.empty ∧
      Prefab.from_graph (g.unrelate_all T a) ser reg =
        Except.error (PrefabError.CouldNotFindType T)) := by
  have key : ∀ (g' : Graph), g'.nodes = g.nodes →
      g'.relations = g.relations ++ [(T, RelationsTable.empty)] →
      (g'.relations.lookup T = some RelationsTable.empty ∧
        Prefab.from_graph g' ser reg =
          Except.error (PrefabError.CouldNotFindType T)) := by
    intro g' hn hrel
    constructor
    · rw [hrel, lookup_append_of_none _ _ _ hT, List.lookup, beq_self_eq_true]
    · rw [Prefab.from_graph]
      have hanode : ∃ ys, g'.nodes.arenas.mapM (nodeArchetypeOf ser reg)
          = Except.ok ys := by
        refine mapM_exists_ok _ _ (fun e he => ?_)
        rw [hn] at he
        obtain ⟨h1, h2⟩ := hnodes e he
        exact nodeArchetypeOf_ok ser reg e h1 h2
      obtain ⟨ys, hys⟩ := hanode
      have hrels : g'.relations.mapM (relationArchetypeOf reg)
          = Except.error (PrefabError.CouldNotFindType T) := by
        rw [hrel]
        refine mapM_append_error _ _ _ ?_ _ (fun e he => ?_)
        · rw [relationArchetypeOf, resolveHash_none reg T hreg, except_bind_err]
        · obtain ⟨h1, h2, h3⟩ := hcats e he
          exact relationArchetypeOf_ok reg e h1 h2 h3
      rw [hys, except_bind_ok, hrels, except_bind_err]
  have hrelu : (g.unrelate T a b).relations
      = g.relations ++ [(T, RelationsTable.empty)] := by
    show updateTable g.relations T (fun tab => tab.remove a b) = _
    rw [updateTable_absent g.relations T _ hT]
    rfl
  have hrelua : (g.unrelate_all T a).relations
      = g.relations ++ [(T, RelationsTable.empty)] := by
    show updateTable g.relations T (fun tab => tab.remove_all a) = _
    rw [updateTable_absent g.relations T _ hT]
    rfl
  exact ⟨key (g.unrelate T a b) rfl hrelu, key (g.unrelate_all T a) rfl hrelua⟩

/-- Witness for C10 at a concrete graph with no relations, the fresh
category 7, and a registry lacking it, for both `unrelate` and
`unrelate_all`. -/
theorem C10_unrelate_fresh_category_instance :
    graph2.relations.lookup 7 = none ∧
    regFindByHash regEx 7 = none ∧
    NodesResolvable graph2 serEx regEx ∧
    CatsResolvable graph2 regEx ∧
    (((graph2.unrelate 7 h0 h1).relations.lookup 7 = some RelationsTable.empty ∧
        Prefab.from_graph (graph2.unrelate 7 h0 h1) serEx regEx =
          Except.error (PrefabError.CouldNotFindType 7)) ∧
      ((graph2.unrelate_all 7 h0).relations.lookup 7 = some RelationsTable.empty ∧
        Prefab.from_graph (graph2.unrelate_all 7 h0) serEx regEx =
          Except.error (PrefabError.CouldNotFindType 7))) :=
  ⟨by decide, by decide, by decide, by decide,
    C10_unrelate_fresh_category graph2 7 h0 h1 serEx regEx
      (by decide) (by decide) (by decide) (by decide)⟩

/-! ### C7: the snapshot side computed explicitly -/

/-- Generic: a key outside the key list looks up to nothing. -/
theorem lookup_eq_none_of_not_mem {α β : Type} [BEq α] [LawfulBEq α]
    (l : List (α × β)) (k : α) (h : k ∉ l.map Prod.fst) : l.lookup k = none := by
  induction l with
  | nil => rfl
  | cons e rest ih =>
    rw [List.map_cons, List.mem_cons] at h
    push_neg at h
    obtain ⟨e1, e2⟩ := e
    rw [List.lookup_cons]
    have : (k == e1) = false := beq_eq_false_iff_ne.mpr h.1
    rw [this]
    exact ih h.2

/-- A name found by `lookup` is one of the registered names. -/
theorem lookup_mem_snd (reg : Registry) (th n : Nat) (h : reg.lookup th = some n) :
    n ∈ reg.map Prod.snd := by
  induction reg with
  | nil => exact absurd h (by simp)
  | cons e rest ih =>
    obtain ⟨h', n'⟩ := e
    rw [List.lookup_cons] at h
    cases hk : (th == h') with
    | true =>
      rw [hk] at h
      injection h with h
      rw [List.map_cons]
      exact List.mem_cons.mpr (Or.inl h.symm)
    | false =>
      rw [hk] at h
      exact List.mem_cons_of_mem _ (ih h)

/-- With duplicate-free names, resolving a hash to its name and the name
back yields the original hash. -/
theorem regFindByName_roundtrip (reg : Registry) (hreg2 : (reg.map Prod.snd).Nodup)
    (th n : Nat) (h : regFindByHash reg th = some n) : regFindByName reg n = some th := by
  induction reg with
  | nil => exact absurd h (by simp [regFindByHash])
  | cons e rest ih =>
    obtain ⟨h', n'⟩ := e
    rw [regFindByHash, List.lookup_cons] at h
    rw [List.map_cons, List.nodup_cons] at hreg2
    cases hk : (th == h') with
    | true =>
      rw [hk] at h
      injection h with h
      have hth : th = h' := eq_of_beq hk
      subst hth
      subst h
      rw [regFindByName, List.find?_cons_of_pos _ (by simp)]
      rfl
    | false =>
      rw [hk] at h
      have hn : n ∈ rest.map Prod.snd := lookup_mem_snd rest th n h
      have hne : (n' == n) = false :=
        beq_eq_false_iff_ne.mpr (fun hc => hreg2.1 (hc ▸ hn))
      rw [regFindByName, List.find?_cons_of_neg _ (by simp [hne])]
      exact ih hreg2.2 h

/-- `resolveName` undoes `nameOfD` for registered hashes. -/
theorem resolveName_nameOfD (reg : Registry) (hreg2 : (reg.map Prod.snd).Nodup)
    (th : Nat) (h : (regFindByHash reg th).isSome) :
    resolveName reg (nameOfD reg th) = Except.ok th := by
  obtain ⟨n, hn⟩ := Option.isSome_iff_exists.mp h
  rw [nameOfD, hn, Option.getD_some]
  exact resolveName_some reg n th (regFindByName_roundtrip reg hreg2 th n hn)

/-- `nodeArchetypeOf` computed on a resolvable, serializable arena. -/
theorem nodeArchetypeOf_eq (ser : SerRegistry) (reg : Registry)
    (e : Nat × List (Nat × Nat)) (hres : (regFindByHash reg e.1).isSome)
    (hser : e.1 ∈ ser) :
    nodeArchetypeOf ser reg e = Except.ok (expectedNodeArch reg e) := by
  obtain ⟨n, hn⟩ := Option.isSome_iff_exists.mp hres
  rw [nodeArchetypeOf, resolveHash_some reg e.1 n hn, except_bind_ok,
    mapM_ok_of_pointwise (fun s => serializeValue ser n e.1 s.2) (fun s => s.2)
      e.2 (fun s _ => serializeValue_ok ser n e.1 s.2 hser),
    except_bind_ok, expectedNodeArch, nameOfD, hn]
  rfl

/-- `tableToPrefab` computed on a resolvable multimap. -/
theorem tableToPrefab_eq (reg : Registry) (m : MultiMap)
    (h : ∀ en ∈ m, (regFindByHash reg en.1.type_hash).isSome ∧
      ∀ tgt ∈ en.2, (regFindByHash reg tgt.type_hash).isSome) :
    tableToPrefab reg m = Except.ok (m.map (expectedTable reg)) := by
  rw [tableToPrefab]
  refine mapM_ok_of_pointwise _ _ m (fun en hen => ?_)
  obtain ⟨hs, ht⟩ := h en hen
  obtain ⟨sn, hsn⟩ := Option.isSome_iff_exists.mp hs
  have htgt : en.2.mapM (fun tgt => do
      let tname ← resolveHash reg tgt.type_hash
      pure ({ type_name := tname, index := tgt.index } : PrefabRelationsTableItem))
      = Except.ok (en.2.map (expectedItem reg)) := by
    refine mapM_ok_of_pointwise _ _ en.2 (fun tgt htg => ?_)
    obtain ⟨tn, htn⟩ := Option.isSome_iff_exists.mp (ht tgt htg)
    simp only [resolveHash_some reg tgt.type_hash tn htn, except_bind_ok]
    rw [expectedItem, nameOfD, htn]
    rfl
  rw [resolveHash_some reg en.1.type_hash sn hsn, except_bind_ok, htgt, except_bind_ok,
    expectedTable, nameOfD, hsn]
  rfl

/-- `relationArchetypeOf` computed on a resolvable category. -/
theorem relationArchetypeOf_eq (reg : Registry) (e : Nat × RelationsTable)
    (hcat : (regFindByHash reg e.1).isSome)
    (hin : ∀ en ∈ e.2.incoming, (regFindByHash reg en.1.type_hash).isSome ∧
      ∀ tgt ∈ en.2, (regFindByHash reg tgt.type_hash).isSome)
    (hout : ∀ en ∈ e.2.outgoing, (regFindByHash reg en.1.type_hash).isSome ∧
      ∀ tgt ∈ en.2, (regFindByHash reg tgt.type_hash).isSome) :
    relationArchetypeOf reg e = Except.ok (expectedRelArch reg e) := by
  obtain ⟨n, hn⟩ := Option.isSome_iff_exists.mp hcat
  rw [relationArchetypeOf, resolveHash_some reg e.1 n hn, except_bind_ok,
    tableToPrefab_eq reg e.2.incoming hin, except_bind_ok,
    tableToPrefab_eq reg e.2.outgoing hout, except_bind_ok,
    expectedRelArch, nameOfD, hn]
  rfl

/-- `from_graph` computed on a fully resolvable graph. -/
theorem from_graph_expected (g : Graph) (ser : SerRegistry) (reg : Registry)
    (hnodes : NodesResolvable g ser reg) (hcats : CatsResolvable g reg) :
    Prefab.from_graph g ser reg = Except.ok (expectedPrefab g reg) := by
  rw [Prefab.from_graph,
    mapM_ok_of_pointwise (nodeArchetypeOf ser reg) (expectedNodeArch reg)
      g.nodes.arenas (fun e he => nodeArchetypeOf_eq ser reg e (hnodes e he).1 (hnodes e he).2),
    except_bind_ok,
    mapM_ok_of_pointwise (relationArchetypeOf reg) (expectedRelArch reg)
      g.relations (fun e he => relationArchetypeOf_eq reg e (hcats e he).1
        (hcats e he).2.1 (hcats e he).2.2),
    except_bind_ok]
  rfl

/-! ### C7: the restore side computed explicitly -/

/-- Updating entries of a foreign key is the identity. -/
theorem map_if_neg_key {β : Type} (l : List (Nat × β)) (th : Nat)
    (f : Nat × β → Nat × β) (h : th ∉ l.map Prod.fst) :
    l.map (fun e => if e.1 = th then f e else e) = l := by
  induction l with
  | nil => rfl
  | cons e rest ih =>
    rw [List.map_cons, List.mem_cons] at h
    push_neg at h
    rw [List.map_cons, if_neg (fun hc => h.1 hc.symm), ih h.2]

/-- `arenaAllocate` on the arena holding the type as its last entry
appends the value under the next sequential slot. -/
theorem arenaAllocate_eq (pre : List (Nat × List (Nat × Nat)))
    (cur : List (Nat × Nat)) (th v : Nat) (hth : th ∉ pre.map Prod.fst) :
    arenaAllocate ⟨pre ++ [(th, cur)]⟩ th v
      = (⟨pre ++ [(th, cur ++ [(cur.length, v)])]⟩, cur.length) := by
  have hlk : (pre ++ [(th, cur)] : List (Nat × List (Nat × Nat))).lookup th
      = some cur := by
    rw [lookup_append_of_none _ _ _ (lookup_eq_none_of_not_mem pre th hth),
      List.lookup_cons]
    simp
  simp only [arenaAllocate, hlk, Option.getD_some, List.map_append,
    map_if_neg_key pre th _ hth, List.map_cons, List.map_nil, if_pos]

/-- The allocation fold of one node archetype, computed: values are
appended to the type's arena with sequential slots, and the mapping
records old slots against the fresh ones positionally. -/
theorem allocFold_eq (ser : SerRegistry) (reg : Registry) (tyname th : Nat)
    (hser : th ∈ ser) :
    ∀ (pairs : List (Nat × Nat)) (pre : List (Nat × List (Nat × Nat)))
      (cur : List (Nat × Nat)) (accM : List (AnyIndex × AnyIndex)),
      th ∉ pre.map Prod.fst →
      (pairs.foldlM
        (fun (st : AnyArena × List (AnyIndex × AnyIndex)) od => do
          let v ← deserializeValue ser tyname th od.2
          pure ((arenaAllocate st.1 th v).1,
            st.2 ++ [(⟨od.1, th⟩, ⟨(arenaAllocate st.1 th v).2, th⟩)]))
        (⟨pre ++ [(th, cur)]⟩, accM))
      = Except.ok
          (⟨pre ++ [(th, cur ++ (List.range' cur.length pairs.length).zip
              (pairs.map Prod.snd))]⟩,
            accM ++ ((pairs.map Prod.fst).zip (List.range' cur.length pairs.length)).map
              (fun p => (⟨p.1, th⟩, ⟨p.2, th⟩))) := by
  intro pairs
  induction pairs with
  | nil =>
    intro pre cur accM hth
    rw [List.foldlM_nil]
    exact congrArg Except.ok (by simp)
  | cons od rest ih =>
    intro pre cur accM hth
    rw [List.foldlM_cons, deserializeValue_ok ser tyname th od.2 hser, except_bind_ok,
      arenaAllocate_eq pre cur th od.2 hth]
    simp only [except_pure_bind]
    rw [ih pre (cur ++ [(cur.length, od.2)])
      (accM ++ [((⟨od.1, th⟩ : AnyIndex), (⟨cur.length, th⟩ : AnyIndex))]) hth,
      List.length_append, List.length_singleton, List.map_cons, List.map_cons,
      List.length_cons, List.range'_succ, List.zip_cons_cons, List.zip_cons_cons,
      List.map_cons, List.append_assoc, List.append_assoc]
    rfl

/-- `toGraphNodes` over the archetypes of a resolvable graph builds the
renumbered arenas and the positional mapping. -/
theorem toGraphNodes_expected (ser : SerRegistry) (reg : Registry)
    (hreg2 : (reg.map Prod.snd).Nodup) :
    ∀ (arenas : List (Nat × List (Nat × Nat)))
      (acc : List (Nat × List (Nat × Nat))) (accM : List (AnyIndex × AnyIndex)),
      (∀ e ∈ arenas, (regFindByHash reg e.1).isSome ∧ e.1 ∈ ser) →
      (∀ e ∈ arenas, e.1 ∉ acc.map Prod.fst) →
      (arenas.map Prod.fst).Nodup →
      toGraphNodes ser reg (arenas.map (expectedNodeArch reg)) ⟨acc⟩ accM
        = Except.ok
            (⟨acc ++ arenas.map (fun e =>
                (e.1, (List.range' 0 e.2.length).zip (e.2.map Prod.snd)))⟩,
              accM ++ arenas.flatMap (fun e => arenaMapping e.1 e.2)) := by
  intro arenas
  induction arenas with
  | nil =>
    intro acc accM _ _ _
    simp [toGraphNodes]
  | cons e rest ih =>
    intro acc accM hres hfresh hnd
    obtain ⟨h1, h2⟩ := hres e (List.mem_cons_self _ _)
    have hens : ensureArena ⟨acc⟩ e.1 = ⟨acc ++ [(e.1, [])]⟩ := by
      rw [ensureArena]
      show (if (acc.lookup e.1).isSome then _ else _) = _
      rw [lookup_eq_none_of_not_mem acc e.1 (hfresh e (List.mem_cons_self _ _))]
      rfl
    have hfresh' : ∀ e' ∈ rest,
        e'.1 ∉ (acc ++ [(e.1, ([] : List (Nat × Nat)) ++
          (List.range' 0 e.2.length).zip (e.2.map Prod.snd))]).map Prod.fst := by
      intro e' he'
      rw [List.map_append, List.map_cons, List.map_nil]
      intro hmem
      rcases List.mem_append.mp hmem with hmem | hmem
      · exact hfresh e' (List.mem_cons_of_mem _ he') hmem
      · rw [List.mem_singleton] at hmem
        have := (List.nodup_cons.mp (by rwa [List.map_cons] at hnd)).1
        exact this (hmem ▸ List.mem_map_of_mem Prod.fst he')
    rw [List.map_cons, toGraphNodes]
    simp only [expectedNodeArch]
    rw [resolveName_nameOfD reg hreg2 e.1 h1, except_bind_ok, hens]
    simp only [List.zip_map', Prod.mk.eta, List.map_id, List.map_id']
    rw [allocFold_eq ser reg (nameOfD reg e.1) e.1 h2 e.2 acc [] accM
      (hfresh e (List.mem_cons_self _ _))]
    simp only [except_bind_ok, List.length_nil]
    rw [ih (acc ++ [(e.1, ([] : List (Nat × Nat)) ++
        (List.range' 0 e.2.length).zip (e.2.map Prod.snd))])
      (accM ++ ((e.2.map Prod.fst).zip (List.range' 0 e.2.length)).map
        (fun p => ((⟨p.1, e.1⟩ : AnyIndex), (⟨p.2, e.1⟩ : AnyIndex))))
      (fun e' he' => hres e' (List.mem_cons_of_mem _ he'))
      hfresh' (List.nodup_cons.mp (by rwa [List.map_cons] at hnd)).2]
    rw [List.map_cons, List.flatMap_cons, List.append_assoc, List.append_assoc]
    rfl

/-! ### C7: the returned mapping looks up every live handle -/

/-- A hit in the head of an appended association list wins. -/
theorem lookup_append_some {α β : Type} [BEq α] (l1 l2 : List (α × β)) (k : α)
    (v : β) (h : l1.lookup k = some v) : (l1 ++ l2).lookup k = some v := by
  induction l1 with
  | nil => exact absurd h (by simp)
  | cons e rest ih =>
    obtain ⟨k', v'⟩ := e
    rw [List.lookup_cons] at h
    rw [List.cons_append, List.lookup_cons]
    cases hk : (k == k') with
    | true =>
      simp only [hk] at h ⊢
      exact h
    | false =>
      simp only [hk] at h ⊢
      exact ih h

/-- A miss in the head of an appended association list defers to the
tail (key type polymorphic). -/
theorem lookup_append_none {α β : Type} [BEq α] (l1 l2 : List (α × β)) (k : α)
    (h : l1.lookup k = none) : (l1 ++ l2).lookup k = l2.lookup k := by
  induction l1 with
  | nil => rfl
  | cons e rest ih =>
    obtain ⟨k', v'⟩ := e
    rw [List.lookup_cons] at h
    rw [List.cons_append, List.lookup_cons]
    cases hk : (k == k') with
    | true =>
      simp only [hk] at h
      exact absurd h (by simp)
    | false =>
      simp only [hk] at h ⊢
      exact ih h

/-- Rebuilding a handle from its fields is the identity. -/
theorem anyIndex_eta (i : AnyIndex) : (⟨i.index, i.type_hash⟩ : AnyIndex) = i := rfl

/-- Looking up a present key in a positional zip-with-range mapping
finds the key's position, offset by the range's start. -/
theorem zipRange_lookup (th : Nat) :
    ∀ (keys : List Nat) (start idx : Nat), idx ∈ keys →
      ((keys.zip (List.range' start keys.length)).map
        (fun p => ((⟨p.1, th⟩ : AnyIndex), (⟨p.2, th⟩ : AnyIndex)))).lookup ⟨idx, th⟩
        = some ⟨start + keys.indexOf idx, th⟩ := by
  intro keys
  induction keys with
  | nil => intro start idx h; exact absurd h (List.not_mem_nil idx)
  | cons k ks ih =>
    intro start idx hmem
    rw [List.length_cons, List.range'_succ, List.zip_cons_cons, List.map_cons]
    by_cases hk : k = idx
    · subst hk
      simp [List.lookup_cons, List.indexOf_cons_self]
    · have hmem2 : idx ∈ ks := by
        rcases List.mem_cons.mp hmem with h | h
        · exact absurd h.symm hk
        · exact h
      have hne : ((⟨idx, th⟩ : AnyIndex) == (⟨k, th⟩ : AnyIndex)) = false :=
        beq_eq_false_iff_ne.mpr (fun hc => hk (congrArg AnyIndex.index hc).symm)
      simp only [List.lookup_cons, hne]
      rw [List.indexOf_cons_ne _ hk,
        show start + (ks.indexOf idx + 1) = start + 1 + ks.indexOf idx from by omega]
      exact ih (start + 1) idx hmem2

/-- The mapping built for one arena answers only handles of that
arena's type. -/
theorem arenaMapping_lookup_ne (th : Nat) (slots : List (Nat × Nat)) (i : AnyIndex)
    (h : i.type_hash ≠ th) : (arenaMapping th slots).lookup i = none := by
  refine lookup_eq_none_of_not_mem _ _ (fun hmem => ?_)
  rw [arenaMapping, List.map_map] at hmem
  obtain ⟨p, hp, hpe⟩ := List.mem_map.mp hmem
  exact h (congrArg AnyIndex.type_hash hpe).symm

/-- The mapping built for one arena sends a stored slot to its position
in the arena's enumeration order. -/
theorem arenaMapping_lookup_hit (th : Nat) (slots : List (Nat × Nat)) (idx : Nat)
    (h : idx ∈ slots.map Prod.fst) :
    (arenaMapping th slots).lookup ⟨idx, th⟩
      = some ⟨(slots.map Prod.fst).indexOf idx, th⟩ := by
  rw [arenaMapping,
    show slots.length = (slots.map Prod.fst).length from (List.length_map _ _).symm,
    zipRange_lookup th (slots.map Prod.fst) 0 idx h, Nat.zero_add]

/-- The returned mapping sends every live handle to its renumbered
form, provided each type owns a single arena. -/
theorem mappingOf_lookup (g : Graph) (hnd : (g.nodes.arenas.map Prod.fst).Nodup)
    (i : AnyIndex) (hlive : LiveIdx g i) :
    (mappingOf g).lookup i = some (renumber g i) := by
  rw [mappingOf, renumber, posInArena]
  have main : ∀ (L : List (Nat × List (Nat × Nat))), (L.map Prod.fst).Nodup →
      (∃ e ∈ L, e.1 = i.type_hash ∧ i.index ∈ e.2.map Prod.fst) →
      (L.flatMap (fun e => arenaMapping e.1 e.2)).lookup i
        = some ⟨(((L.lookup i.type_hash).getD []).map Prod.fst).indexOf i.index,
            i.type_hash⟩ := by
    intro L
    induction L with
    | nil =>
      intro _ hex
      obtain ⟨e, he, _⟩ := hex
      exact absurd he (List.not_mem_nil e)
    | cons e rest ih =>
      intro hnd2 hex
      obtain ⟨e1, e2⟩ := e
      rw [List.map_cons, List.nodup_cons] at hnd2
      simp only [List.flatMap_cons]
      by_cases hth : e1 = i.type_hash
      · subst hth
        have hidx : i.index ∈ e2.map Prod.fst := by
          obtain ⟨e', he', hh1, hh2⟩ := hex
          rcases List.mem_cons.mp he' with he2 | he2
          · rw [he2] at hh2
            exact hh2
          · have : i.type_hash ∈ rest.map Prod.fst := by
              rw [← hh1]
              exact List.mem_map_of_mem Prod.fst he2
            exact absurd this hnd2.1
        have hhit := arenaMapping_lookup_hit i.type_hash e2 i.index hidx
        rw [anyIndex_eta i] at hhit
        rw [lookup_append_some _ _ i _ hhit]
        simp only [List.lookup_cons, beq_self_eq_true, Option.getD_some]
      · have hmiss := arenaMapping_lookup_ne e1 e2 i (fun hc => hth hc.symm)
        have hbe : (i.type_hash == e1) = false :=
          beq_eq_false_iff_ne.mpr (fun hc => hth hc.symm)
        rw [lookup_append_none _ _ i hmiss]
        simp only [List.lookup_cons, hbe]
        obtain ⟨e', he', hh1, hh2⟩ := hex
        rcases List.mem_cons.mp he' with he2 | he2
        · exact absurd ((congrArg Prod.fst he2).symm.trans hh1) hth
        · exact ih hnd2.2 ⟨e', he2, hh1, hh2⟩
  exact main g.nodes.arenas hnd hlive

/-- Mapping a live handle through the returned mapping succeeds with
the renumbered handle. -/
theorem mapIndexTh_renumber (g : Graph) (hnd : (g.nodes.arenas.map Prod.fst).Nodup)
    (i : AnyIndex) (hlive : LiveIdx g i) :
    mapIndexTh (mappingOf g) i = Except.ok (renumber g i) := by
  rw [mapIndexTh, mappingOf_lookup g hnd i hlive]

/-- `mapM` over a mapped list succeeds pointwise. -/
theorem mapM_map_ok {α β γ : Type} (gf : α → β) (f : β → Except PrefabError γ)
    (hfun : α → γ) : ∀ l : List α, (∀ x ∈ l, f (gf x) = Except.ok (hfun x)) →
      (l.map gf).mapM f = Except.ok (l.map hfun) := by
  intro l
  induction l with
  | nil => intro _; rfl
  | cons a rest ih =>
    intro h
    rw [List.map_cons, List.mapM_cons, h a (List.mem_cons_self _ _),
      ih (fun x hx => h x (List.mem_cons_of_mem _ hx))]
    rfl

/-- Rebuilding one serialized multimap through the returned mapping
renumbers every endpoint and preserves structure. -/
theorem prefabTableToMultiMap_expected (g : Graph) (reg : Registry)
    (hreg2 : (reg.map Prod.snd).Nodup)
    (hnd : (g.nodes.arenas.map Prod.fst).Nodup) (m : MultiMap)
    (hres : ∀ en ∈ m, (regFindByHash reg en.1.type_hash).isSome ∧
      ∀ tgt ∈ en.2, (regFindByHash reg tgt.type_hash).isSome)
    (hlive : ∀ en ∈ m, LiveIdx g en.1 ∧ ∀ tgt ∈ en.2, LiveIdx g tgt) :
    prefabTableToMultiMap reg (mappingOf g) (m.map (expectedTable reg))
      = Except.ok (mapMultiMap (renumber g) m) := by
  rw [prefabTableToMultiMap, mapMultiMap]
  refine mapM_map_ok (expectedTable reg) _ _ m (fun en hen => ?_)
  obtain ⟨hs, ht⟩ := hres en hen
  obtain ⟨hls, hlt⟩ := hlive en hen
  have htgts : ((expectedTable reg en).target).mapM (fun tgt => do
      let tth ← resolveName reg tgt.type_name
      mapIndexTh (mappingOf g) ⟨tgt.index, tth⟩)
      = Except.ok (en.2.map (renumber g)) := by
    show ((en.2.map (expectedItem reg)).mapM (fun tgt => do
      let tth ← resolveName reg tgt.type_name
      mapIndexTh (mappingOf g) ⟨tgt.index, tth⟩)) = _
    refine mapM_map_ok (expectedItem reg) _ (renumber g) en.2 (fun tgt htg => ?_)
    simp only [expectedItem]
    rw [resolveName_nameOfD reg hreg2 tgt.type_hash (ht tgt htg)]
    simp only [except_bind_ok]
    rw [anyIndex_eta tgt, mapIndexTh_renumber g hnd tgt (hlt tgt htg)]
  simp only [expectedTable] at htgts ⊢
  rw [resolveName_nameOfD reg hreg2 en.1.type_hash hs]
  simp only [except_bind_ok]
  rw [htgts]
  simp only [except_bind_ok]
  rw [anyIndex_eta en.1, mapIndexTh_renumber g hnd en.1 hls]
  simp only [except_bind_ok]
  rfl

/-- `to_graph` on the snapshot of a fully resolvable, well-formed graph
rebuilds the renumbered graph and returns the positional mapping. -/
theorem to_graph_expected (g : Graph) (ser : SerRegistry) (reg : Registry)
    (hreg2 : (reg.map Prod.snd).Nodup)
    (hnd : (g.nodes.arenas.map Prod.fst).Nodup)
    (hnodes : NodesResolvable g ser reg) (hcats : CatsResolvable g reg)
    (hwf : GraphWellFormed g) :
    (expectedPrefab g reg).to_graph ser reg
      = Except.ok (⟨renumberedArena g, mapGraphRelations (renumber g) g.relations⟩,
          mappingOf g) := by
  have hng := toGraphNodes_expected ser reg hreg2 g.nodes.arenas [] []
    (fun e he => ⟨(hnodes e he).1, (hnodes e he).2⟩) (fun e _ => by simp) hnd
  simp only [List.nil_append] at hng
  rw [Prefab.to_graph]
  simp only [expectedPrefab]
  rw [hng]
  simp only [except_bind_ok]
  rw [show (g.nodes.arenas.flatMap fun e => arenaMapping e.1 e.2) = mappingOf g from rfl]
  have hrel : (g.relations.map (expectedRelArch reg)).mapM (fun arch => do
      let th ← resolveName reg arch.type_name
      let outgoing ← prefabTableToMultiMap reg (mappingOf g) arch.outgoing
      let incoming ← prefabTableToMultiMap reg (mappingOf g) arch.incoming
      pure (th, ({ outgoing, incoming } : RelationsTable)))
      = Except.ok (mapGraphRelations (renumber g) g.relations) := by
    rw [mapGraphRelations]
    refine mapM_map_ok (expectedRelArch reg) _ _ g.relations (fun e he => ?_)
    simp only [expectedRelArch]
    rw [resolveName_nameOfD reg hreg2 e.1 (hcats e he).1]
    simp only [except_bind_ok]
    rw [prefabTableToMultiMap_expected g reg hreg2 hnd e.2.outgoing
      (hcats e he).2.2 (hwf e he).2]
    simp only [except_bind_ok]
    rw [prefabTableToMultiMap_expected g reg hreg2 hnd e.2.incoming
      (hcats e he).2.1 (hwf e he).1]
    simp only [except_bind_ok]
    rfl
  rw [hrel]
  simp only [except_bind_ok]
  rw [show (⟨g.nodes.arenas.map (fun e =>
      (e.1, (List.range' 0 e.2.length).zip (e.2.map Prod.snd)))⟩ : AnyArena)
      = renumberedArena g from rfl]
  rfl

/-! ### C7: the mapping is a bijection between the handle sets -/

/-- First projections of one arena's mapping: the stored handles in
enumeration order. -/
theorem arenaMapping_fst (th : Nat) :
    ∀ (slots : List (Nat × Nat)) (start : Nat),
      (((slots.map Prod.fst).zip (List.range' start slots.length)).map
        (fun p => ((⟨p.1, th⟩ : AnyIndex), (⟨p.2, th⟩ : AnyIndex)))).map Prod.fst
      = slots.map (fun s => (⟨s.1, th⟩ : AnyIndex)) := by
  intro slots
  induction slots with
  | nil => intro start; rfl
  | cons sl rest ih =>
    intro start
    rw [List.map_cons, List.length_cons, List.range'_succ, List.zip_cons_cons,
      List.map_cons, List.map_cons, List.map_cons, ih (start + 1)]

/-- Second projections of one arena's mapping: the fresh handles in
slot order. -/
theorem arenaMapping_snd (th : Nat) :
    ∀ (slots : List (Nat × Nat)) (start : Nat),
      (((slots.map Prod.fst).zip (List.range' start slots.length)).map
        (fun p => ((⟨p.1, th⟩ : AnyIndex), (⟨p.2, th⟩ : AnyIndex)))).map Prod.snd
      = (List.range' start slots.length).map (fun n => (⟨n, th⟩ : AnyIndex)) := by
  intro slots
  induction slots with
  | nil => intro start; rfl
  | cons sl rest ih =>
    intro start
    rw [List.map_cons, List.length_cons, List.range'_succ, List.zip_cons_cons,
      List.map_cons, List.map_cons, List.map_cons, ih (start + 1)]

/-- Tagging the first components of a zip, when the second list is long
enough, tags the first list. -/
theorem zip_fst_anyindex (th : Nat) :
    ∀ (ks vs : List Nat), ks.length ≤ vs.length →
      (ks.zip vs).map (fun s => (⟨s.1, th⟩ : AnyIndex))
        = ks.map (fun k => (⟨k, th⟩ : AnyIndex)) := by
  intro ks
  induction ks with
  | nil => intro vs _; rfl
  | cons k ks ih =>
    intro vs h
    cases vs with
    | nil => exact absurd h (by simp)
    | cons v vs =>
      rw [List.zip_cons_cons, List.map_cons, List.map_cons, ih vs (by simpa using h)]

/-- The mapping's domain is the source graph's handle set in
enumeration order. -/
theorem mappingOf_fst (g : Graph) :
    (mappingOf g).map Prod.fst = arenaIndices g.nodes := by
  have main : ∀ (L : List (Nat × List (Nat × Nat))),
      ((L.flatMap (fun e => arenaMapping e.1 e.2)).map Prod.fst)
      = L.flatMap (fun e => e.2.map (fun s => (⟨s.1, e.1⟩ : AnyIndex))) := by
    intro L
    induction L with
    | nil => rfl
    | cons e rest ih =>
      simp only [List.flatMap_cons, List.map_append, ih]
      congr 1
      rw [arenaMapping, arenaMapping_fst e.1 e.2 0]
  rw [mappingOf, main, arenaIndices]

/-- The mapping's range is the rebuilt graph's handle set in
enumeration order. -/
theorem mappingOf_snd (g : Graph) :
    (mappingOf g).map Prod.snd = arenaIndices (renumberedArena g) := by
  have main : ∀ (L : List (Nat × List (Nat × Nat))),
      ((L.flatMap (fun e => arenaMapping e.1 e.2)).map Prod.snd)
      = (L.map (fun e => (e.1, (List.range' 0 e.2.length).zip (e.2.map Prod.snd)))).flatMap
          (fun e => e.2.map (fun s => (⟨s.1, e.1⟩ : AnyIndex))) := by
    intro L
    induction L with
    | nil => rfl
    | cons e rest ih =>
      simp only [List.flatMap_cons, List.map_cons, List.map_append, ih]
      congr 1
      rw [arenaMapping, arenaMapping_snd e.1 e.2 0,
        zip_fst_anyindex e.1 (List.range' 0 e.2.length) (e.2.map Prod.snd) (by simp)]
  rw [mappingOf, main, arenaIndices, renumberedArena]

/-- Renumbering keeps each arena's type key. -/
theorem renumberedArena_keys (g : Graph) :
    (renumberedArena g).arenas.map Prod.fst = g.nodes.arenas.map Prod.fst := by
  rw [renumberedArena, List.map_map]
  exact List.map_congr_left (fun a _ => rfl)

/-- The rebuilt arenas store sequential slots, hence duplicate-free
ones. -/
theorem renumberedArena_slots_nodup (g : Graph) :
    ∀ e ∈ (renumberedArena g).arenas, (e.2.map Prod.fst).Nodup := by
  intro e he
  rw [renumberedArena] at he
  obtain ⟨e0, _, hee⟩ := List.mem_map.mp he
  rw [← hee]
  rw [List.map_fst_zip _ _ (by simp)]
  exact List.nodup_range' 0 e0.2.length 1 Nat.one_pos

/-- An arena with unique type keys and unique slots per type enumerates
every handle once. -/
theorem arenaIndices_nodup (a : AnyArena) (h1 : (a.arenas.map Prod.fst).Nodup)
    (h2 : ∀ e ∈ a.arenas, (e.2.map Prod.fst).Nodup) : (arenaIndices a).Nodup := by
  rw [arenaIndices, List.nodup_flatMap]
  constructor
  · intro e he
    refine List.Nodup.map_on ?_ (List.Nodup.of_map Prod.fst (h2 e he))
    intro x hx y hy hf
    exact List.inj_on_of_nodup_map (h2 e he) hx hy (congrArg AnyIndex.index hf)
  · refine List.Pairwise.imp ?_ (List.Pairwise.of_map Prod.fst (fun a b h => h) h1)
    intro a b hne x hxa hxb
    obtain ⟨sx, _, hsx⟩ := List.mem_map.mp hxa
    obtain ⟨sy, _, hsy⟩ := List.mem_map.mp hxb
    rw [← hsx] at hsy
    exact hne (congrArg AnyIndex.type_hash hsy).symm

/-- The counterexample correcting C7: `gDangling` is produced by public
API calls alone (insert two nodes, relate them, remove the target) and
every type and category it stores resolves, yet restoring its freshly
taken snapshot fails with `ArenaIndexNotFound`, because `Graph::remove`
left a relation edge referencing the removed handle. -/
theorem C7_roundtrip_counterexample :
    NodesResolvable gDangling serEx regEx ∧ CatsResolvable gDangling regEx ∧
    (Prefab.from_graph gDangling serEx regEx >>= fun p => p.to_graph serEx regEx)
      = Except.error (PrefabError.ArenaIndexNotFound 0 1) :=
  ⟨by decide, by decide, rfl⟩

/-- C7 (corrected): resolvability of the stored types is not enough —
the graph must also satisfy the invariant that every handle appearing
in a relation table is live in the arena (and the usual key-uniqueness
sanity of registry names, arena type keys and per-arena slots). Under
those hypotheses the round trip `to_graph` after `from_graph` succeeds
and yields exactly the source graph renumbered by the returned
mapping: the rebuilt arena keeps every type's values in enumeration
order under fresh sequential slots, every relation edge is mapped
category-preservingly through `renumber`, and the returned mapping is
a bijection from the original handle set onto the new one — its two
projections enumerate the two handle sets without repetition. -/
theorem C7_roundtrip_renumbering (g : Graph) (ser : SerRegistry) (reg : Registry)
    (hreg2 : (reg.map Prod.snd).Nodup)
    (hnd : (g.nodes.arenas.map Prod.fst).Nodup)
    (hslots : ArenaSlotsNodup g)
    (hnodes : NodesResolvable g ser reg) (hcats : CatsResolvable g reg)
    (hwf : GraphWellFormed g) :
    (Prefab.from_graph g ser reg >>= fun p => p.to_graph ser reg)
      = Except.ok (⟨renumberedArena g, mapGraphRelations (renumber g) g.relations⟩,
          mappingOf g)
    ∧ (mappingOf g).map Prod.fst = arenaIndices g.nodes
    ∧ (mappingOf g).map Prod.snd = arenaIndices (renumberedArena g)
    ∧ ((mappingOf g).map Prod.fst).Nodup
    ∧ ((mappingOf g).map Prod.snd).Nodup := by
  refine ⟨?_, mappingOf_fst g, mappingOf_snd g, ?_, ?_⟩
  · rw [from_graph_expected g ser reg hnodes hcats]
    simp only [except_bind_ok]
    exact to_graph_expected g ser reg hreg2 hnd hnodes hcats hwf
  · rw [mappingOf_fst]
    exact arenaIndices_nodup g.nodes hnd hslots
  · rw [mappingOf_snd]
    refine arenaIndices_nodup (renumberedArena g) ?_ (renumberedArena_slots_nodup g)
    rw [renumberedArena_keys]
    exact hnd

/-- The round-trip contract evaluated on the two-node, one-edge graph
`gGood`: all hypotheses hold and the theorem's conclusion follows. -/
theorem C7_roundtrip_renumbering_witness :
    ((regEx.map Prod.snd).Nodup ∧ (gGood.nodes.arenas.map Prod.fst).Nodup ∧
      ArenaSlotsNodup gGood ∧ NodesResolvable gGood serEx regEx ∧
      CatsResolvable gGood regEx ∧ GraphWellFormed gGood) ∧
    ((Prefab.from_graph gGood serEx regEx >>= fun p => p.to_graph serEx regEx)
        = Except.ok (⟨renumberedArena gGood,
            mapGraphRelations (renumber gGood) gGood.relations⟩, mappingOf gGood)
      ∧ (mappingOf gGood).map Prod.fst = arenaIndices gGood.nodes
      ∧ (mappingOf gGood).map Prod.snd = arenaIndices (renumberedArena gGood)
      ∧ ((mappingOf gGood).map Prod.fst).Nodup
      ∧ ((mappingOf gGood).map Prod.snd).Nodup) :=
  ⟨⟨by decide, by decide, by decide, by decide, by decide, by decide⟩,
    C7_roundtrip_renumbering gGood serEx regEx (by decide) (by decide) (by decide)
      (by decide) (by decide) (by decide)⟩

end Nodio
